import Mathlib

/-!
Verification of the poker hand classifier (`pokerhand.py`).

The source evaluates the best five-card poker hand from 2 player cards and
5 table cards.  We embed the classification core (`isstraight`,
`isstraightflush`, `isfullhouse`, `getRank`) shallowly: Python dictionaries
become insertion-ordered association lists, the in-place `list.sort()`
becomes `List.insertionSort (· ≤ ·)`, and operations that would raise on
empty collections (`max`, indexing `values[0]`) return `Option`.
-/

namespace Poker

/-- The four suits (`S`, `H`, `C`, `D` in the source). -/
inductive Suit : Type
  | Spade
  | Heart
  | Club
  | Diamond
deriving DecidableEq, Repr

instance : Fintype Suit :=
  ⟨⟨{Suit.Spade, Suit.Heart, Suit.Club, Suit.Diamond}, by decide⟩, fun s => by cases s <;> decide⟩

/-- A card is a pair `(suit, value)` as in the source. -/
abbrev Card := Suit × Nat

/-- Rank constant (line 55). -/
def STRAIGHT_FLUSH : Nat := 0

/-- Rank constant (line 56). -/
def FOUR_KIND : Nat := 1

/-- Rank constant (line 57). -/
def FULL_HOUSE : Nat := 2

/-- Rank constant (line 58). -/
def FLUSH : Nat := 3

/-- Rank constant (line 59). -/
def STRAIGHT : Nat := 4

/-- Rank constant (line 60). -/
def THREE_KIND : Nat := 5

/-- Rank constant (line 61). -/
def TWO_PAIR : Nat := 6

/-- Rank constant (line 62). -/
def ONE_PAIR : Nat := 7

/-- Rank constant (line 63). -/
def HIGH_CARD : Nat := 8

/-- Low value of the Ace (line 70). -/
def ACE_LOW : Nat := 1

/-- High value of the Ace (line 71). -/
def ACE_HIGH : Nat := 14

/-- Lines 76–77 of `isstraight`: `if ACE_LOW in values: values.append(ACE_HIGH)`. -/
def aceAugment (values : List Nat) : List Nat :=
  if ACE_LOW ∈ values then values ++ [ACE_HIGH] else values

/-- The scan loop of `isstraight` (lines 79–92).  `scanRun rest prevval count`
is the result of running the loop over `rest` with current previous value
`prevval` and current run counter `count`; a `+1` step increments the counter,
any other step (including a duplicate value) resets it to `1`, and the loop
stops successfully as soon as the counter reaches `5`. -/
def scanRun : List Nat → Nat → Nat → Bool
  | [], _, count => count == 5
  | v :: rest, prevval, count =>
    let c := if v == prevval + 1 then count + 1 else 1
    if c == 5 then true else scanRun rest v c

/-- `isPrefixRun l e n`: the first `n` elements of `l` are exactly
`e, e+1, …, e+n-1`.  Auxiliary notion used to characterize the scan loop. -/
def isPrefixRun : List Nat → Nat → Nat → Bool
  | _, _, 0 => true
  | [], _, _ + 1 => false
  | x :: xs, e, n + 1 => x == e && isPrefixRun xs (e + 1) n

/-- `adjRun5 l`: some element of `l` is immediately followed by the next four
consecutive integers.  Auxiliary notion used to characterize the scan loop. -/
def adjRun5 : List Nat → Bool
  | [] => false
  | v :: rest => isPrefixRun rest (v + 1) 4 || adjRun5 rest

/-- The state of the Python list after `isstraight` returns: the caller's list
has been augmented with 14 when an Ace was present (line 77) and sorted in
place ascending (line 78). -/
def isstraightFinal (values : List Nat) : List Nat :=
  (aceAugment values).insertionSort (· ≤ ·)

/-- `isstraight` (lines 75–92).  Returns `none` when the input is empty
(`values[0]` would raise `IndexError`), otherwise the scan result. -/
def isstraight (values : List Nat) : Option Bool :=
  match isstraightFinal values with
  | [] => none
  | v :: rest => some (scanRun rest v 1)

/-- Insert-or-update on an insertion-ordered association list: the model of
one Python `dict` access of the form `d[k] = f(d[k]) if k in d else d0`. -/
def updateA {α β : Type} [DecidableEq α] : List (α × β) → α → (β → β) → β → List (α × β)
  | [], k, _, d => [(k, d)]
  | (k', v) :: rest, k, f, d =>
    if k' = k then (k', f v) :: rest else (k', v) :: updateA rest k f d

/-- Lookup in an insertion-ordered association list (`d[k]` / `d.get(k)`). -/
def lookupA {α β : Type} [DecidableEq α] : List (α × β) → α → Option β
  | [], _ => none
  | (k', v) :: rest, k => if k' = k then some v else lookupA rest k

/-- The three dictionaries built by the preprocessing loop of `getRank`
(lines 132–145). -/
structure Dicts where
  cardsbysuit : List (Suit × List Nat)
  countsbysuit : List (Suit × Nat)
  countsbyvalue : List (Nat × Nat)

/-- One iteration of the preprocessing loop (lines 135–145). -/
def step (st : Dicts) (c : Card) : Dicts :=
  { cardsbysuit := updateA st.cardsbysuit c.1 (fun l => l ++ [c.2]) [c.2]
    countsbysuit := updateA st.countsbysuit c.1 (fun n => n + 1) 1
    countsbyvalue := updateA st.countsbyvalue c.2 (fun n => n + 1) 1 }

/-- The preprocessing loop of `getRank` over the full hand. -/
def preprocess (fullhand : List Card) : Dicts :=
  fullhand.foldl step ⟨[], [], []⟩

/-- `max(countsbysuit, key=countsbysuit.get)` keeps the first key (in dict
insertion order) whose count is not exceeded by a later one: the accumulator
is replaced only on a strictly greater count. -/
def maxKeyAux {α : Type} (acc : α × Nat) : List (α × Nat) → α × Nat
  | [] => acc
  | (k, v) :: rest => maxKeyAux (if v > acc.2 then (k, v) else acc) rest

/-- `isstraightflush` (lines 98–103).  `none` models the `ValueError` of
`max` on an empty dict and a failed key lookup, neither of which occurs for a
non-empty hand. -/
def isstraightflush (countsbysuit : List (Suit × Nat))
    (cardsbysuit : List (Suit × List Nat)) : Option Bool :=
  match countsbysuit with
  | [] => none
  | e :: rest =>
    let ms := (maxKeyAux e rest).1
    match lookupA countsbysuit ms with
    | none => none
    | some c =>
      if c < 5 then some false
      else
        match lookupA cardsbysuit ms with
        | none => none
        | some vals => isstraight vals

/-- `isfullhouse` (lines 110–119): some value occurs exactly 3 times and at
most 2 values occur exactly once. -/
def isfullhouse (countsbyvalue : List (Nat × Nat)) : Bool :=
  if 3 ∈ countsbyvalue.map Prod.snd then
    decide (countsbyvalue.countP (fun p => p.2 == 1) ≤ 2)
  else false

/-- Python `max` over a list of naturals, `none` on the empty list. -/
def maxListNat : List Nat → Option Nat
  | [] => none
  | x :: xs => some (xs.foldl Nat.max x)

/-- `getRank` (lines 124–181): builds the grouped views of
`tablecards + playercards` and tests the categories from strongest to
weakest, returning the first match. -/
def getRank (playercards tablecards : List Card) : Option Nat :=
  let fullhand := tablecards ++ playercards
  let d := preprocess fullhand
  match isstraightflush d.countsbysuit d.cardsbysuit with
  | none => none
  | some true => some STRAIGHT_FLUSH
  | some false =>
    if 4 ∈ d.countsbyvalue.map Prod.snd then some FOUR_KIND
    else if isfullhouse d.countsbyvalue then some FULL_HOUSE
    else
      match maxListNat (d.countsbysuit.map Prod.snd) with
      | none => none
      | some m =>
        if 5 ≤ m then some FLUSH
        else
          match isstraight (d.countsbyvalue.map Prod.fst) with
          | none => none
          | some true => some STRAIGHT
          | some false =>
            if 3 ∈ d.countsbyvalue.map Prod.snd then some THREE_KIND
            else if 2 ∈ d.countsbyvalue.map Prod.snd then
              if 2 ≤ d.countsbyvalue.countP (fun p => p.2 == 2) then some TWO_PAIR
              else some ONE_PAIR
            else some HIGH_CARD

/-! ### Specification-level definitions

These follow the wording of the design document, for comparison with the
embedded code. -/

/-- The full hand, in the order the source builds it (line 125). -/
def fullhandOf (playercards tablecards : List Card) : List Card :=
  tablecards ++ playercards

/-- Number of cards of the hand `h` carrying value `v`. -/
def countVal (h : List Card) (v : Nat) : Nat :=
  (h.filter fun c => c.2 = v).length

/-- Number of cards of the hand `h` in suit `s`. -/
def countSuit (h : List Card) (s : Suit) : Nat :=
  (h.filter fun c => c.1 = s).length

/-- The values held in suit `s`, in hand order. -/
def valuesOf (h : List Card) (s : Suit) : List Nat :=
  (h.filter fun c => c.1 = s).map Prod.snd

/-- The suit the source's `max(countsbysuit, key=countsbysuit.get)` selects,
`none` for the empty hand. -/
def maxSuitOf (h : List Card) : Option Suit :=
  match (preprocess h).countsbysuit with
  | [] => none
  | e :: rest => some (maxKeyAux e rest).1

/-- Modelled from the spec (§4.2): the values contain a run of 5 consecutive
integers, with the Ace allowed to play high (14) or low (1). -/
def SpecStraight (values : List Nat) : Prop :=
  ∃ a, ∀ i < 5, a + i ∈ values ∨ (a + i = 14 ∧ 1 ∈ values)

/-- Executable version of `SpecStraight` (every candidate start lies below
15 when the values are card values). -/
def specStraightB (values : List Nat) : Bool :=
  (List.range 15).any fun a =>
    (List.range 5).all fun i =>
      values.contains (a + i) || (a + i == 14 && values.contains 1)

/-- The set of distinct values of the hand whose by-value count is exactly
`n` ("the number of distinct values with count exactly 1" of §4.1). -/
def distinctValsWithCount (h : List Card) (n : Nat) : Finset Nat :=
  (h.map Prod.snd).toFinset.filter fun v => countVal h v = n

/-- Modelled from the spec (§4.1): the classification cascade stated over the
hand's counting structure directly, first match wins.  Used as the
specification-side counterpart of `getRank`. -/
def rankSpec (h : List Card) : Nat :=
  if ∃ s, 5 ≤ countSuit h s ∧ specStraightB (valuesOf h s) = true then 0
  else if ∃ v ∈ h.map Prod.snd, countVal h v = 4 then 1
  else if (∃ v ∈ h.map Prod.snd, countVal h v = 3) ∧ (distinctValsWithCount h 1).card ≤ 2 then 2
  else if ∃ s, 5 ≤ countSuit h s then 3
  else if specStraightB (h.map Prod.snd) = true then 4
  else if ∃ v ∈ h.map Prod.snd, countVal h v = 3 then 5
  else if 2 ≤ (distinctValsWithCount h 2).card then 6
  else if 1 ≤ (distinctValsWithCount h 2).card then 7
  else 8

/-- Well-formedness of an evaluation input (§3): 2 player cards, 5 table
cards, no duplicate `(suit, value)` pair, values in `[1, 13]`. -/
def WellFormed (playercards tablecards : List Card) : Prop :=
  playercards.length = 2 ∧ tablecards.length = 5 ∧
    (fullhandOf playercards tablecards).Nodup ∧
    ∀ c ∈ fullhandOf playercards tablecards, 1 ≤ c.2 ∧ c.2 ≤ 13

instance (pc tc : List Card) : Decidable (WellFormed pc tc) := by
  unfold WellFormed; infer_instance

/-- Player cards of the straight-flush unit test (lines 218–219). -/
def pcSF : List Card := [(Suit.Spade, 3), (Suit.Spade, 7)]

/-- Table cards of the straight-flush unit test (lines 218–219). -/
def tcSF : List Card :=
  [(Suit.Diamond, 2), (Suit.Spade, 4), (Suit.Spade, 5), (Suit.Club, 13), (Suit.Spade, 6)]

/-- Player cards of a two-triples hand (3-3-3-5-5-5-7). -/
def pcFH : List Card := [(Suit.Spade, 3), (Suit.Heart, 3)]

/-- Table cards of a two-triples hand (3-3-3-5-5-5-7). -/
def tcFH : List Card :=
  [(Suit.Diamond, 3), (Suit.Spade, 5), (Suit.Heart, 5), (Suit.Diamond, 5), (Suit.Club, 7)]

/-- Player cards of the two-pair unit test (lines 249–250). -/
def pcTP : List Card := [(Suit.Spade, 10), (Suit.Diamond, 5)]

/-- Table cards of the two-pair unit test (lines 249–250). -/
def tcTP : List Card :=
  [(Suit.Heart, 9), (Suit.Spade, 4), (Suit.Spade, 5), (Suit.Club, 12), (Suit.Heart, 10)]

/-- Player cards of the flush unit test (lines 234–235). -/
def pcFL : List Card := [(Suit.Spade, 11), (Suit.Heart, 3)]

/-- Table cards of the flush unit test (lines 234–235). -/
def tcFL : List Card :=
  [(Suit.Spade, 3), (Suit.Spade, 4), (Suit.Spade, 5), (Suit.Club, 12), (Suit.Spade, 6)]

/-! ### Association-list lemmas -/

section AList

variable {α β : Type} [DecidableEq α]

theorem lookupA_updateA_self (m : List (α × β)) (k : α) (f : β → β) (d : β) :
    lookupA (updateA m k f d) k = some ((lookupA m k).elim d f) := by
  induction m with
  | nil => simp [updateA, lookupA]
  | cons p rest ih =>
    obtain ⟨k', v⟩ := p
    by_cases h : k' = k
    · subst h; simp [updateA, lookupA]
    · simp [updateA, lookupA, h, ih]

theorem lookupA_updateA_ne (m : List (α × β)) {k k' : α} (f : β → β) (d : β)
    (h : k' ≠ k) : lookupA (updateA m k f d) k' = lookupA m k' := by
  have hk : ¬k = k' := fun hh => h hh.symm
  induction m with
  | nil => simp [updateA, lookupA, hk]
  | cons p rest ih =>
    obtain ⟨k₀, v⟩ := p
    by_cases h0 : k₀ = k
    · subst h0
      simp [updateA, lookupA, hk]
    · simp only [updateA, if_neg h0, lookupA]
      by_cases h1 : k₀ = k' <;> simp [h1, ih]

theorem keys_updateA (m : List (α × β)) (k : α) (f : β → β) (d : β) :
    (updateA m k f d).map Prod.fst =
      if k ∈ m.map Prod.fst then m.map Prod.fst else m.map Prod.fst ++ [k] := by
  induction m with
  | nil => simp [updateA]
  | cons p rest ih =>
    obtain ⟨k₀, v⟩ := p
    by_cases h0 : k₀ = k
    · subst h0; simp [updateA]
    · have : ¬k = k₀ := fun hh => h0 hh.symm
      simp only [updateA, if_neg h0, List.map_cons, List.mem_cons, this, false_or, ih]
      by_cases hm : k ∈ rest.map Prod.fst <;> simp [hm]

theorem mem_keys_iff_lookupA (m : List (α × β)) (k : α) :
    k ∈ m.map Prod.fst ↔ lookupA m k ≠ none := by
  induction m with
  | nil => simp [lookupA]
  | cons p rest ih =>
    obtain ⟨k₀, v⟩ := p
    by_cases h0 : k₀ = k
    · subst h0; simp [lookupA]
    · have : ¬k = k₀ := fun hh => h0 hh.symm
      simp [lookupA, h0, this, ih]

theorem keys_nodup_updateA (m : List (α × β)) (k : α) (f : β → β) (d : β)
    (h : (m.map Prod.fst).Nodup) : ((updateA m k f d).map Prod.fst).Nodup := by
  rw [keys_updateA]
  by_cases hm : k ∈ m.map Prod.fst
  · simpa [hm]
  · simpa [hm] using List.Nodup.append h (List.nodup_singleton k) (by simpa using hm)

theorem lookupA_eq_of_mem {m : List (α × β)} (hnd : (m.map Prod.fst).Nodup)
    {p : α × β} (hp : p ∈ m) : lookupA m p.1 = some p.2 := by
  induction m with
  | nil => simp at hp
  | cons q rest ih =>
    obtain ⟨k₀, v⟩ := q
    rcases List.mem_cons.1 hp with h | h
    · subst h; simp [lookupA]
    · have hk : p.1 ≠ k₀ := by
        intro hh
        have : p.1 ∈ rest.map Prod.fst := List.mem_map_of_mem Prod.fst h
        rw [hh] at this
        exact (List.nodup_cons.1 hnd).1 this
      have : ¬k₀ = p.1 := fun hh => hk hh.symm
      simp [lookupA, this, ih (List.nodup_cons.1 hnd).2 h]

theorem mem_of_lookupA {m : List (α × β)} {k : α} {v : β}
    (h : lookupA m k = some v) : (k, v) ∈ m := by
  induction m with
  | nil => simp [lookupA] at h
  | cons q rest ih =>
    obtain ⟨k₀, v₀⟩ := q
    by_cases h0 : k₀ = k
    · subst h0
      have h' : v₀ = v := by simpa [lookupA] using h
      subst h'
      exact List.mem_cons_self _ _
    · simp only [lookupA, if_neg h0] at h
      exact List.mem_cons_of_mem _ (ih h)

end AList

/-! ### Characterization of the preprocessing loop -/

theorem countSuit_cons (c : Card) (t : List Card) (s : Suit) :
    countSuit (c :: t) s = (if c.1 = s then 1 else 0) + countSuit t s := by
  simp only [countSuit, List.filter_cons]
  by_cases h : c.1 = s <;> simp [h, Nat.add_comm]

theorem countVal_cons (c : Card) (t : List Card) (v : Nat) :
    countVal (c :: t) v = (if c.2 = v then 1 else 0) + countVal t v := by
  simp only [countVal, List.filter_cons]
  by_cases h : c.2 = v <;> simp [h, Nat.add_comm]

theorem valuesOf_cons (c : Card) (t : List Card) (s : Suit) :
    valuesOf (c :: t) s = if c.1 = s then c.2 :: valuesOf t s else valuesOf t s := by
  simp only [valuesOf, List.filter_cons]
  by_cases h : c.1 = s <;> simp [h]

theorem valuesOf_length (h : List Card) (s : Suit) :
    (valuesOf h s).length = countSuit h s := by
  simp [valuesOf, countSuit]

theorem foldl_countsbysuit_none (h : List Card) (st : Dicts) (s : Suit) :
    lookupA ((h.foldl step st).countsbysuit) s = none ↔
      lookupA st.countsbysuit s = none ∧ countSuit h s = 0 := by
  induction h generalizing st with
  | nil => simp [countSuit]
  | cons c t ih =>
    rw [List.foldl_cons, ih, countSuit_cons]
    by_cases hc : c.1 = s
    · subst hc
      rw [show (step st c).countsbysuit = updateA st.countsbysuit c.1 (· + 1) 1 from rfl,
        lookupA_updateA_self]
      simp
    · have h1 : lookupA ((step st c).countsbysuit) s = lookupA st.countsbysuit s :=
        lookupA_updateA_ne _ _ _ (fun hh => hc hh.symm)
      simp [h1, hc]

theorem foldl_countsbysuit_getD (h : List Card) (st : Dicts) (s : Suit) :
    (lookupA ((h.foldl step st).countsbysuit) s).getD 0 =
      (lookupA st.countsbysuit s).getD 0 + countSuit h s := by
  induction h generalizing st with
  | nil => simp [countSuit]
  | cons c t ih =>
    rw [List.foldl_cons, ih, countSuit_cons]
    by_cases hc : c.1 = s
    · subst hc
      rw [show (step st c).countsbysuit = updateA st.countsbysuit c.1 (· + 1) 1 from rfl,
        lookupA_updateA_self]
      cases hl : lookupA st.countsbysuit c.1 <;> simp [hl] <;> omega
    · have h1 : lookupA ((step st c).countsbysuit) s = lookupA st.countsbysuit s :=
        lookupA_updateA_ne _ _ _ (fun hh => hc hh.symm)
      simp [h1, hc]

theorem foldl_cardsbysuit_none (h : List Card) (st : Dicts) (s : Suit) :
    lookupA ((h.foldl step st).cardsbysuit) s = none ↔
      lookupA st.cardsbysuit s = none ∧ countSuit h s = 0 := by
  induction h generalizing st with
  | nil => simp [countSuit]
  | cons c t ih =>
    rw [List.foldl_cons, ih, countSuit_cons]
    by_cases hc : c.1 = s
    · subst hc
      rw [show (step st c).cardsbysuit = updateA st.cardsbysuit c.1 (· ++ [c.2]) [c.2] from rfl,
        lookupA_updateA_self]
      simp
    · have h1 : lookupA ((step st c).cardsbysuit) s = lookupA st.cardsbysuit s :=
        lookupA_updateA_ne _ _ _ (fun hh => hc hh.symm)
      simp [h1, hc]

theorem foldl_cardsbysuit_getD (h : List Card) (st : Dicts) (s : Suit) :
    (lookupA ((h.foldl step st).cardsbysuit) s).getD [] =
      (lookupA st.cardsbysuit s).getD [] ++ valuesOf h s := by
  induction h generalizing st with
  | nil => simp [valuesOf]
  | cons c t ih =>
    rw [List.foldl_cons, ih, valuesOf_cons]
    by_cases hc : c.1 = s
    · subst hc
      rw [show (step st c).cardsbysuit = updateA st.cardsbysuit c.1 (· ++ [c.2]) [c.2] from rfl,
        lookupA_updateA_self]
      cases hl : lookupA st.cardsbysuit c.1 <;> simp [hl]
    · have h1 : lookupA ((step st c).cardsbysuit) s = lookupA st.cardsbysuit s :=
        lookupA_updateA_ne _ _ _ (fun hh => hc hh.symm)
      simp [h1, hc]

theorem foldl_countsbyvalue_none (h : List Card) (st : Dicts) (v : Nat) :
    lookupA ((h.foldl step st).countsbyvalue) v = none ↔
      lookupA st.countsbyvalue v = none ∧ countVal h v = 0 := by
  induction h generalizing st with
  | nil => simp [countVal]
  | cons c t ih =>
    rw [List.foldl_cons, ih, countVal_cons]
    by_cases hc : c.2 = v
    · subst hc
      rw [show (step st c).countsbyvalue = updateA st.countsbyvalue c.2 (· + 1) 1 from rfl,
        lookupA_updateA_self]
      simp
    · have h1 : lookupA ((step st c).countsbyvalue) v = lookupA st.countsbyvalue v :=
        lookupA_updateA_ne _ _ _ (fun hh => hc hh.symm)
      simp [h1, hc]

theorem foldl_countsbyvalue_getD (h : List Card) (st : Dicts) (v : Nat) :
    (lookupA ((h.foldl step st).countsbyvalue) v).getD 0 =
      (lookupA st.countsbyvalue v).getD 0 + countVal h v := by
  induction h generalizing st with
  | nil => simp [countVal]
  | cons c t ih =>
    rw [List.foldl_cons, ih, countVal_cons]
    by_cases hc : c.2 = v
    · subst hc
      rw [show (step st c).countsbyvalue = updateA st.countsbyvalue c.2 (· + 1) 1 from rfl,
        lookupA_updateA_self]
      cases hl : lookupA st.countsbyvalue c.2 <;> simp [hl] <;> omega
    · have h1 : lookupA ((step st c).countsbyvalue) v = lookupA st.countsbyvalue v :=
        lookupA_updateA_ne _ _ _ (fun hh => hc hh.symm)
      simp [h1, hc]

theorem lookupA_preprocess_countsbysuit (h : List Card) (s : Suit) :
    lookupA ((preprocess h).countsbysuit) s =
      if countSuit h s = 0 then none else some (countSuit h s) := by
  have hnone := foldl_countsbysuit_none h ⟨[], [], []⟩ s
  have hgetD := foldl_countsbysuit_getD h ⟨[], [], []⟩ s
  by_cases h0 : countSuit h s = 0
  · simp only [h0, if_pos]
    exact hnone.2 ⟨rfl, h0⟩
  · rw [if_neg h0]
    cases hl : lookupA ((preprocess h).countsbysuit) s with
    | none => exact absurd ((hnone.1 (by rw [← hl]; rfl)).2) h0
    | some c =>
      rw [show (preprocess h).countsbysuit = ((h.foldl step ⟨[], [], []⟩).countsbysuit)
        from rfl] at hl
      rw [hl] at hgetD
      simp [lookupA] at hgetD
      rw [hgetD]

theorem lookupA_preprocess_cardsbysuit (h : List Card) (s : Suit) :
    lookupA ((preprocess h).cardsbysuit) s =
      if countSuit h s = 0 then none else some (valuesOf h s) := by
  have hnone := foldl_cardsbysuit_none h ⟨[], [], []⟩ s
  have hgetD := foldl_cardsbysuit_getD h ⟨[], [], []⟩ s
  by_cases h0 : countSuit h s = 0
  · simp only [h0, if_pos]
    exact hnone.2 ⟨rfl, h0⟩
  · rw [if_neg h0]
    cases hl : lookupA ((preprocess h).cardsbysuit) s with
    | none => exact absurd ((hnone.1 (by rw [← hl]; rfl)).2) h0
    | some c =>
      rw [show (preprocess h).cardsbysuit = ((h.foldl step ⟨[], [], []⟩).cardsbysuit)
        from rfl] at hl
      rw [hl] at hgetD
      simp [lookupA] at hgetD
      rw [hgetD]

theorem lookupA_preprocess_countsbyvalue (h : List Card) (v : Nat) :
    lookupA ((preprocess h).countsbyvalue) v =
      if countVal h v = 0 then none else some (countVal h v) := by
  have hnone := foldl_countsbyvalue_none h ⟨[], [], []⟩ v
  have hgetD := foldl_countsbyvalue_getD h ⟨[], [], []⟩ v
  by_cases h0 : countVal h v = 0
  · simp only [h0, if_pos]
    exact hnone.2 ⟨rfl, h0⟩
  · rw [if_neg h0]
    cases hl : lookupA ((preprocess h).countsbyvalue) v with
    | none => exact absurd ((hnone.1 (by rw [← hl]; rfl)).2) h0
    | some c =>
      rw [show (preprocess h).countsbyvalue = ((h.foldl step ⟨[], [], []⟩).countsbyvalue)
        from rfl] at hl
      rw [hl] at hgetD
      simp [lookupA] at hgetD
      rw [hgetD]

theorem mem_keys_countsbysuit (h : List Card) (s : Suit) :
    s ∈ (preprocess h).countsbysuit.map Prod.fst ↔ countSuit h s ≠ 0 := by
  rw [mem_keys_iff_lookupA, lookupA_preprocess_countsbysuit]
  by_cases h0 : countSuit h s = 0 <;> simp [h0]

theorem mem_keys_countsbyvalue (h : List Card) (v : Nat) :
    v ∈ (preprocess h).countsbyvalue.map Prod.fst ↔ countVal h v ≠ 0 := by
  rw [mem_keys_iff_lookupA, lookupA_preprocess_countsbyvalue]
  by_cases h0 : countVal h v = 0 <;> simp [h0]

theorem keys_cardsbysuit_eq (h : List Card) :
    (preprocess h).cardsbysuit.map Prod.fst = (preprocess h).countsbysuit.map Prod.fst := by
  suffices H : ∀ st : Dicts, st.cardsbysuit.map Prod.fst = st.countsbysuit.map Prod.fst →
      (h.foldl step st).cardsbysuit.map Prod.fst =
        (h.foldl step st).countsbysuit.map Prod.fst from H ⟨[], [], []⟩ rfl
  induction h with
  | nil => intro st hk; exact hk
  | cons c t ih =>
    intro st hk
    rw [List.foldl_cons]
    apply ih
    show (updateA st.cardsbysuit c.1 _ _).map Prod.fst =
      (updateA st.countsbysuit c.1 _ _).map Prod.fst
    rw [keys_updateA, keys_updateA, hk]

theorem preprocess_keys_nodup (h : List Card) :
    ((preprocess h).cardsbysuit.map Prod.fst).Nodup ∧
      ((preprocess h).countsbysuit.map Prod.fst).Nodup ∧
      ((preprocess h).countsbyvalue.map Prod.fst).Nodup := by
  suffices H : ∀ st : Dicts, (st.cardsbysuit.map Prod.fst).Nodup →
      (st.countsbysuit.map Prod.fst).Nodup → (st.countsbyvalue.map Prod.fst).Nodup →
      ((h.foldl step st).cardsbysuit.map Prod.fst).Nodup ∧
        ((h.foldl step st).countsbysuit.map Prod.fst).Nodup ∧
        ((h.foldl step st).countsbyvalue.map Prod.fst).Nodup from
    H ⟨[], [], []⟩ (by simp) (by simp) (by simp)
  induction h with
  | nil => intro st h1 h2 h3; exact ⟨h1, h2, h3⟩
  | cons c t ih =>
    intro st h1 h2 h3
    rw [List.foldl_cons]
    exact ih _ (keys_nodup_updateA _ _ _ _ h1) (keys_nodup_updateA _ _ _ _ h2)
      (keys_nodup_updateA _ _ _ _ h3)

theorem mem_countsbysuit (h : List Card) {p : Suit × Nat}
    (hp : p ∈ (preprocess h).countsbysuit) : p.2 = countSuit h p.1 ∧ countSuit h p.1 ≠ 0 := by
  have hl := lookupA_eq_of_mem (preprocess_keys_nodup h).2.1 hp
  rw [lookupA_preprocess_countsbysuit] at hl
  by_cases h0 : countSuit h p.1 = 0
  · simp [h0] at hl
  · rw [if_neg h0] at hl
    exact ⟨(Option.some.inj hl).symm, h0⟩

theorem mem_countsbyvalue (h : List Card) {p : Nat × Nat}
    (hp : p ∈ (preprocess h).countsbyvalue) : p.2 = countVal h p.1 ∧ countVal h p.1 ≠ 0 := by
  have hl := lookupA_eq_of_mem (preprocess_keys_nodup h).2.2 hp
  rw [lookupA_preprocess_countsbyvalue] at hl
  by_cases h0 : countVal h p.1 = 0
  · simp [h0] at hl
  · rw [if_neg h0] at hl
    exact ⟨(Option.some.inj hl).symm, h0⟩

theorem mem_snd_countsbyvalue (h : List Card) {n : Nat} (hn : n ≠ 0) :
    n ∈ (preprocess h).countsbyvalue.map Prod.snd ↔ ∃ v, countVal h v = n := by
  constructor
  · intro hm
    obtain ⟨p, hp, hpe⟩ := List.mem_map.1 hm
    exact ⟨p.1, by rw [← (mem_countsbyvalue h hp).1, hpe]⟩
  · rintro ⟨v, hv⟩
    have hl : lookupA ((preprocess h).countsbyvalue) v = some n := by
      rw [lookupA_preprocess_countsbyvalue, hv]
      simp [hn]
    exact List.mem_map.2 ⟨(v, n), mem_of_lookupA hl, rfl⟩

theorem mem_values_iff_countVal (h : List Card) (v : Nat) :
    v ∈ h.map Prod.snd ↔ countVal h v ≠ 0 := by
  rw [countVal, ← List.countP_eq_length_filter, ← Nat.pos_iff_ne_zero,
    List.countP_pos_iff]
  simp [List.mem_map, eq_comm]

theorem countP_map_fst {γ : Type} (m : List (γ × Nat)) (g : γ → Nat) (n : Nat)
    (hg : ∀ p ∈ m, p.2 = g p.1) :
    m.countP (fun p => p.2 == n) = (m.map Prod.fst).countP (fun v => g v == n) := by
  induction m with
  | nil => simp
  | cons p rest ih =>
    rw [List.map_cons, List.countP_cons, List.countP_cons,
      ih (fun q hq => hg q (List.mem_cons_of_mem _ hq))]
    have := hg p (List.mem_cons_self _ _)
    simp [this]

theorem countP_snd_countsbyvalue (h : List Card) (n : Nat) (hn : n ≠ 0) :
    (preprocess h).countsbyvalue.countP (fun p => p.2 == n) =
      (distinctValsWithCount h n).card := by
  rw [countP_map_fst _ (countVal h) n (fun p hp => (mem_countsbyvalue h hp).1)]
  have hnd : ((preprocess h).countsbyvalue.map Prod.fst).Nodup := (preprocess_keys_nodup h).2.2
  rw [List.countP_eq_length_filter]
  have hfs : ((preprocess h).countsbyvalue.map Prod.fst).toFinset =
      (h.map Prod.snd).toFinset := by
    ext v
    simp only [List.mem_toFinset, mem_keys_countsbyvalue, mem_values_iff_countVal]
  have hcard := List.toFinset_card_of_nodup
    (List.Nodup.filter (fun v => countVal h v == n) hnd)
  rw [← hcard, List.toFinset_filter, hfs]
  unfold distinctValsWithCount
  congr 1
  ext v
  simp

theorem countsbysuit_ne_nil (h : List Card) (hne : h ≠ []) :
    (preprocess h).countsbysuit ≠ [] := by
  obtain ⟨c, t, rfl⟩ := List.exists_cons_of_ne_nil hne
  intro h0
  have hmem : c.1 ∈ (preprocess (c :: t)).countsbysuit.map Prod.fst :=
    (mem_keys_countsbysuit _ _).2 (by rw [countSuit_cons]; simp)
  rw [h0] at hmem
  simp at hmem

theorem countsbyvalue_ne_nil (h : List Card) (hne : h ≠ []) :
    (preprocess h).countsbyvalue ≠ [] := by
  obtain ⟨c, t, rfl⟩ := List.exists_cons_of_ne_nil hne
  intro h0
  have hmem : c.2 ∈ (preprocess (c :: t)).countsbyvalue.map Prod.fst :=
    (mem_keys_countsbyvalue _ _).2 (by rw [countVal_cons]; simp)
  rw [h0] at hmem
  simp at hmem

/-! ### The `max` over the by-suit counts -/

theorem maxKeyAux_mem {α : Type} (acc : α × Nat) (l : List (α × Nat)) :
    maxKeyAux acc l ∈ acc :: l := by
  induction l generalizing acc with
  | nil => simp [maxKeyAux]
  | cons p rest ih =>
    obtain ⟨k, v⟩ := p
    simp only [maxKeyAux]
    have hmem := ih (if v > acc.2 then (k, v) else acc)
    rcases List.mem_cons.1 hmem with hh | hh
    · rw [hh]
      by_cases hv : v > acc.2 <;> simp [hv]
    · exact List.mem_cons_of_mem _ (List.mem_cons_of_mem _ hh)

theorem maxKeyAux_ge {α : Type} (acc : α × Nat) (l : List (α × Nat)) :
    ∀ p ∈ acc :: l, p.2 ≤ (maxKeyAux acc l).2 := by
  induction l generalizing acc with
  | nil =>
    intro p hp
    rw [List.mem_singleton] at hp
    rw [hp]
    simp [maxKeyAux]
  | cons q rest ih =>
    obtain ⟨k, v⟩ := q
    intro p hp
    simp only [maxKeyAux]
    have hacc : acc.2 ≤ (if v > acc.2 then (k, v) else acc).2 := by
      by_cases hv : v > acc.2 <;> simp [hv] <;> omega
    have hkv : v ≤ (if v > acc.2 then (k, v) else acc).2 := by
      by_cases hv : v > acc.2 <;> simp [hv] <;> omega
    rcases List.mem_cons.1 hp with hh | hh
    · rw [hh]
      exact le_trans hacc (ih _ _ (List.mem_cons_self _ _))
    · rcases List.mem_cons.1 hh with hh' | hh'
      · rw [hh']
        exact le_trans hkv (ih _ _ (List.mem_cons_self _ _))
      · exact ih _ _ (List.mem_cons_of_mem _ hh')

/-! ### Correctness of the straight scan -/

theorem isPrefixRun_zero (l : List Nat) (e : Nat) : isPrefixRun l e 0 = true := by
  cases l <;> rfl

theorem isPrefixRun_mono {l : List Nat} {e m n : Nat} (hmn : m ≤ n)
    (h : isPrefixRun l e n = true) : isPrefixRun l e m = true := by
  induction l generalizing e m n with
  | nil =>
    cases m with
    | zero => rfl
    | succ m' =>
      cases n with
      | zero => omega
      | succ n' => simp [isPrefixRun] at h
  | cons x xs ih =>
    cases m with
    | zero => rfl
    | succ m' =>
      cases n with
      | zero => omega
      | succ n' =>
        simp only [isPrefixRun, Bool.and_eq_true, beq_iff_eq] at h ⊢
        exact ⟨h.1, ih (by omega) h.2⟩

theorem isPrefixRun_mem {l : List Nat} {e n : Nat} (h : isPrefixRun l e n = true) :
    ∀ i < n, e + i ∈ l := by
  induction l generalizing e n with
  | nil =>
    cases n with
    | zero => intro i hi; omega
    | succ n' => simp [isPrefixRun] at h
  | cons x xs ih =>
    cases n with
    | zero => intro i hi; omega
    | succ n' =>
      simp only [isPrefixRun, Bool.and_eq_true, beq_iff_eq] at h
      intro i hi
      cases i with
      | zero => simp [h.1]
      | succ i' =>
        have hmem := ih h.2 i' (by omega)
        have harith : e + (i' + 1) = e + 1 + i' := by omega
        rw [harith]
        exact List.mem_cons_of_mem _ hmem

theorem scanRun_iff (l : List Nat) :
    ∀ prevval count n : Nat, count + n = 5 → 1 ≤ count → 1 ≤ n →
    (scanRun l prevval count = true ↔
      (isPrefixRun l (prevval + 1) n = true ∨ adjRun5 l = true)) := by
  induction l with
  | nil =>
    intro prevval count n hcn h1 hn
    obtain ⟨n', rfl⟩ : ∃ n', n = n' + 1 := ⟨n - 1, by omega⟩
    simp [scanRun, isPrefixRun, adjRun5]
    omega
  | cons v rest ih =>
    intro prevval count n hcn h1 hn
    by_cases hv : v = prevval + 1
    · subst hv
      by_cases hc : count = 4
      · subst hc
        obtain rfl : n = 1 := by omega
        constructor
        · intro _
          left
          simp [isPrefixRun]
        · intro _
          simp [scanRun]
      · obtain ⟨n', rfl⟩ : ∃ n', n = n' + 1 := ⟨n - 1, by omega⟩
        have hn' : 1 ≤ n' := by omega
        have hlhs : scanRun ((prevval + 1) :: rest) prevval count =
            scanRun rest (prevval + 1) (count + 1) := by
          have h5 : (count + 1 == 5) = false := by simp; omega
          simp [scanRun, h5]
        rw [hlhs, ih (prevval + 1) (count + 1) n' (by omega) (by omega) (by omega)]
        have hpre : isPrefixRun ((prevval + 1) :: rest) (prevval + 1 + 1 - 1) (n' + 1) =
            isPrefixRun rest (prevval + 1 + 1) n' := by
          simp [isPrefixRun]
        have harith : prevval + 1 + 1 - 1 = prevval + 1 := by omega
        rw [harith] at hpre
        rw [hpre, show adjRun5 ((prevval + 1) :: rest) =
          (isPrefixRun rest (prevval + 1 + 1) 4 || adjRun5 rest) from rfl]
        simp only [Bool.or_eq_true]
        constructor
        · rintro (hp | ha)
          · exact Or.inl hp
          · exact Or.inr (Or.inr ha)
        · rintro (hp | hb | ha)
          · exact Or.inl hp
          · exact Or.inl (isPrefixRun_mono (by omega) hb)
          · exact Or.inr ha
    · have hb : (v == prevval + 1) = false := by simp [hv]
      have hlhs : scanRun (v :: rest) prevval count = scanRun rest v 1 := by
        simp [scanRun, hb]
      rw [hlhs, ih v 1 4 (by omega) (by omega) (by omega)]
      obtain ⟨n', rfl⟩ : ∃ n', n = n' + 1 := ⟨n - 1, by omega⟩
      have hpre : isPrefixRun (v :: rest) (prevval + 1) (n' + 1) = false := by
        simp [isPrefixRun, hv]
      rw [hpre, show adjRun5 (v :: rest) =
        (isPrefixRun rest (v + 1) 4 || adjRun5 rest) from rfl]
      simp only [Bool.or_eq_true]
      constructor
      · rintro (hp | ha)
        · exact Or.inr (Or.inl hp)
        · exact Or.inr (Or.inr ha)
      · rintro (hf | hp | ha)
        · exact absurd hf (by simp)
        · exact Or.inl hp
        · exact Or.inr ha

theorem adjRun5_run {l : List Nat} (h : adjRun5 l = true) :
    ∃ a, ∀ i < 5, a + i ∈ l := by
  induction l with
  | nil => simp [adjRun5] at h
  | cons v rest ih =>
    rw [show adjRun5 (v :: rest) = (isPrefixRun rest (v + 1) 4 || adjRun5 rest) from rfl,
      Bool.or_eq_true] at h
    rcases h with hp | ha
    · refine ⟨v, fun i hi => ?_⟩
      cases i with
      | zero => simp
      | succ i' =>
        have hmem := isPrefixRun_mem hp i' (by omega)
        have harith : v + (i' + 1) = v + 1 + i' := by omega
        rw [harith]
        exact List.mem_cons_of_mem _ hmem
    · obtain ⟨a, ha'⟩ := ih ha
      exact ⟨a, fun i hi => List.mem_cons_of_mem _ (ha' i hi)⟩

theorem isPrefixRun_of_mem {l : List Nat} (hp : List.Pairwise (· < ·) l) :
    ∀ n e, (∀ i < n, e + i ∈ l) → (∀ y ∈ l, e ≤ y) → isPrefixRun l e n = true := by
  intro n
  induction n generalizing l with
  | zero => intro e _ _; exact isPrefixRun_zero l e
  | succ n' ih =>
    intro e hmem hlb
    have he : e ∈ l := by simpa using hmem 0 (by omega)
    cases l with
    | nil => simp at he
    | cons x xs =>
      have hx : x = e := by
        rcases List.mem_cons.1 he with hh | hh
        · exact hh.symm
        · have hlt : x < e := (List.pairwise_cons.1 hp).1 _ hh
          have hle : e ≤ x := hlb x (List.mem_cons_self _ _)
          omega
      subst hx
      have hrest : isPrefixRun xs (x + 1) n' = true := by
        apply ih (List.pairwise_cons.1 hp).2
        · intro i hi
          have h' := hmem (i + 1) (by omega)
          rcases List.mem_cons.1 h' with hh | hh
          · omega
          · have harith : x + 1 + i = x + (i + 1) := by omega
            rw [harith]
            exact hh
        · intro y hy
          have := (List.pairwise_cons.1 hp).1 y hy
          omega
      simp [isPrefixRun, hrest]

theorem adjRun5_of_mem {l : List Nat} (hp : List.Pairwise (· < ·) l)
    {a : Nat} (hmem : ∀ i < 5, a + i ∈ l) : adjRun5 l = true := by
  induction l with
  | nil => simpa using hmem 0 (by omega)
  | cons x xs ih =>
    rw [show adjRun5 (x :: xs) = (isPrefixRun xs (x + 1) 4 || adjRun5 xs) from rfl,
      Bool.or_eq_true]
    by_cases hx : x = a
    · subst hx
      left
      apply isPrefixRun_of_mem (List.pairwise_cons.1 hp).2
      · intro i hi
        have h' := hmem (i + 1) (by omega)
        rcases List.mem_cons.1 h' with hh | hh
        · omega
        · have harith : x + 1 + i = x + (i + 1) := by omega
          rw [harith]
          exact hh
      · intro y hy
        have := (List.pairwise_cons.1 hp).1 y hy
        omega
    · right
      have hain : a ∈ xs := by
        have h0 : a ∈ x :: xs := by simpa using hmem 0 (by omega)
        rcases List.mem_cons.1 h0 with hh | hh
        · exact absurd hh.symm hx
        · exact hh
      have hxa : x < a := (List.pairwise_cons.1 hp).1 a hain
      apply ih (List.pairwise_cons.1 hp).2
      intro i hi
      have h' := hmem i hi
      rcases List.mem_cons.1 h' with hh | hh
      · omega
      · exact hh

/-! ### `isstraight` against the specification's straight notion -/

theorem mem_aceAugment (values : List Nat) (x : Nat) :
    x ∈ aceAugment values ↔ x ∈ values ∨ (x = 14 ∧ 1 ∈ values) := by
  unfold aceAugment ACE_LOW ACE_HIGH
  by_cases h1 : 1 ∈ values <;> simp [h1]

theorem aceAugment_nodup {values : List Nat} (hnd : values.Nodup)
    (hb : ∀ v ∈ values, v ≤ 13) : (aceAugment values).Nodup := by
  unfold aceAugment
  by_cases h1 : ACE_LOW ∈ values
  · rw [if_pos h1]
    refine List.Nodup.append hnd (List.nodup_singleton _) ?_
    intro a ha hmem
    rw [List.mem_singleton] at hmem
    subst hmem
    exact absurd (hb _ ha) (by unfold ACE_HIGH at *; omega)
  · rw [if_neg h1]
    exact hnd

theorem isstraightFinal_sorted (values : List Nat) :
    List.Sorted (· ≤ ·) (isstraightFinal values) :=
  List.sorted_insertionSort _ _

theorem isstraightFinal_perm (values : List Nat) :
    (isstraightFinal values).Perm (aceAugment values) :=
  List.perm_insertionSort _ _

theorem mem_isstraightFinal (values : List Nat) (x : Nat) :
    x ∈ isstraightFinal values ↔ x ∈ aceAugment values :=
  (isstraightFinal_perm values).mem_iff

theorem isstraightFinal_pairwise {values : List Nat} (hnd : values.Nodup)
    (hb : ∀ v ∈ values, v ≤ 13) :
    List.Pairwise (· < ·) (isstraightFinal values) := by
  have hs : List.Pairwise (· ≤ ·) (isstraightFinal values) := isstraightFinal_sorted values
  have hnd2 : (isstraightFinal values).Nodup :=
    ((isstraightFinal_perm values).nodup_iff).2 (aceAugment_nodup hnd hb)
  exact (hs.and hnd2).imp fun h => lt_of_le_of_ne h.1 h.2

theorem isstraightFinal_ne_nil {values : List Nat} (hne : values ≠ []) :
    isstraightFinal values ≠ [] := by
  intro h0
  have hlen : (isstraightFinal values).length = (aceAugment values).length :=
    (isstraightFinal_perm values).length_eq
  have hge : values.length ≤ (aceAugment values).length := by
    unfold aceAugment
    by_cases h1 : ACE_LOW ∈ values <;> simp [h1]
  have hpos : 0 < values.length := List.length_pos.2 hne
  rw [h0] at hlen
  simp at hlen
  omega

theorem isstraight_isSome {values : List Nat} (hne : values ≠ []) :
    ∃ b, isstraight values = some b := by
  unfold isstraight
  cases hf : isstraightFinal values with
  | nil => exact absurd hf (isstraightFinal_ne_nil hne)
  | cons v rest => exact ⟨_, rfl⟩

theorem adjRun5_isstraightFinal {values : List Nat} (hnd : values.Nodup)
    (hb : ∀ v ∈ values, v ≤ 13) :
    (adjRun5 (isstraightFinal values) = true ↔ SpecStraight values) := by
  constructor
  · intro h
    obtain ⟨a, ha⟩ := adjRun5_run h
    refine ⟨a, fun i hi => ?_⟩
    have := (mem_isstraightFinal values (a + i)).1 (ha i hi)
    rwa [mem_aceAugment] at this
  · rintro ⟨a, ha⟩
    refine adjRun5_of_mem (isstraightFinal_pairwise hnd hb) (a := a) fun i hi => ?_
    rw [mem_isstraightFinal, mem_aceAugment]
    exact ha i hi

theorem isstraight_eq_spec {values : List Nat} (hne : values ≠ [])
    (hnd : values.Nodup) (hb : ∀ v ∈ values, v ≤ 13) :
    isstraight values = some true ↔ SpecStraight values := by
  rw [← adjRun5_isstraightFinal hnd hb]
  unfold isstraight
  cases hf : isstraightFinal values with
  | nil => exact absurd hf (isstraightFinal_ne_nil hne)
  | cons v rest =>
    have hscan := scanRun_iff rest v 1 4 (by omega) (by omega) (by omega)
    rw [show adjRun5 (v :: rest) = (isPrefixRun rest (v + 1) 4 || adjRun5 rest) from rfl]
    simp only [Option.some.injEq]
    rw [show ∀ b : Bool, (b = true) = (b = true) from fun _ => rfl]
    constructor
    · intro hs
      have := hscan.1 hs
      rcases this with hp | ha
      · simp [hp]
      · simp [ha]
    · intro hor
      apply hscan.2
      rw [Bool.or_eq_true] at hor
      exact hor

theorem isstraight_eq_false {values : List Nat} (hne : values ≠ [])
    (hnd : values.Nodup) (hb : ∀ v ∈ values, v ≤ 13) (hns : ¬SpecStraight values) :
    isstraight values = some false := by
  obtain ⟨b, hb'⟩ := isstraight_isSome hne
  cases b with
  | false => exact hb'
  | true => exact absurd ((isstraight_eq_spec hne hnd hb).1 hb') hns

theorem specStraight_congr {l1 l2 : List Nat} (hmm : ∀ x, x ∈ l1 ↔ x ∈ l2) :
    SpecStraight l1 ↔ SpecStraight l2 := by
  unfold SpecStraight
  constructor <;> rintro ⟨a, ha⟩ <;> refine ⟨a, fun i hi => ?_⟩
  · rcases ha i hi with hm | hm
    · exact Or.inl ((hmm _).1 hm)
    · exact Or.inr ⟨hm.1, (hmm 1).1 hm.2⟩
  · rcases ha i hi with hm | hm
    · exact Or.inl ((hmm _).2 hm)
    · exact Or.inr ⟨hm.1, (hmm 1).2 hm.2⟩

theorem specStraightB_iff {values : List Nat} (hb : ∀ v ∈ values, v ≤ 13) :
    specStraightB values = true ↔ SpecStraight values := by
  unfold specStraightB SpecStraight
  rw [List.any_eq_true]
  constructor
  · rintro ⟨a, _, ha⟩
    rw [List.all_eq_true] at ha
    refine ⟨a, fun i hi => ?_⟩
    have := ha i (List.mem_range.2 hi)
    rw [Bool.or_eq_true] at this
    rcases this with hc | hc
    · exact Or.inl (List.elem_iff.1 (by simpa using hc))
    · rw [Bool.and_eq_true] at hc
      exact Or.inr ⟨by simpa using hc.1, by simpa using hc.2⟩
  · rintro ⟨a, ha⟩
    have ha15 : a < 15 := by
      rcases ha 0 (by omega) with hm | hm
      · have := hb _ (by simpa using hm)
        omega
      · omega
    refine ⟨a, List.mem_range.2 ha15, ?_⟩
    rw [List.all_eq_true]
    intro i hi
    rcases ha i (List.mem_range.1 hi) with hm | hm
    · simp [hm]
    · simp [hm.1, hm.2]

/-! ### Consequences of well-formedness -/

theorem fullhand_length {pc tc : List Card} (hwf : WellFormed pc tc) :
    (fullhandOf pc tc).length = 7 := by
  obtain ⟨h2, h5, _, _⟩ := hwf
  unfold fullhandOf
  rw [List.length_append, h2, h5]

theorem fullhand_ne_nil {pc tc : List Card} (hwf : WellFormed pc tc) :
    fullhandOf pc tc ≠ [] := by
  intro h0
  have := fullhand_length hwf
  rw [h0] at this
  simp at this

theorem valuesOf_nodup {h : List Card} (hnd : h.Nodup) (s : Suit) :
    (valuesOf h s).Nodup := by
  unfold valuesOf
  refine List.Nodup.map_on ?_ (hnd.filter _)
  intro x hx y hy hxy
  have hx1 : x.1 = s := by simpa using (List.mem_filter.1 hx).2
  have hy1 : y.1 = s := by simpa using (List.mem_filter.1 hy).2
  exact Prod.ext (hx1.trans hy1.symm) hxy

theorem valuesOf_bounds {h : List Card} (hb : ∀ c ∈ h, 1 ≤ c.2 ∧ c.2 ≤ 13) (s : Suit) :
    ∀ v ∈ valuesOf h s, v ≤ 13 := by
  intro v hv
  obtain ⟨c, hc, rfl⟩ := List.mem_map.1 hv
  exact (hb c (List.mem_filter.1 hc).1).2

theorem countSuit_two {h : List Card} {s1 s2 : Suit} (hne : s1 ≠ s2) :
    countSuit h s1 + countSuit h s2 ≤ h.length := by
  induction h with
  | nil => simp [countSuit]
  | cons c t ih =>
    rw [countSuit_cons, countSuit_cons, List.length_cons]
    by_cases h1 : c.1 = s1 <;> by_cases h2 : c.1 = s2
    · exact absurd (h1.symm.trans h2) hne
    · rw [if_pos h1, if_neg h2]; omega
    · rw [if_neg h1, if_pos h2]; omega
    · rw [if_neg h1, if_neg h2]; omega

theorem flushSuit_unique {h : List Card} (hlen : h.length = 7) {s1 s2 : Suit}
    (h1 : 5 ≤ countSuit h s1) (h2 : 5 ≤ countSuit h s2) : s1 = s2 := by
  by_contra hne
  have := countSuit_two (h := h) hne
  omega

/-! ### `max` over a list of naturals -/

theorem foldl_max_ge (xs : List Nat) (x : Nat) :
    x ≤ xs.foldl Nat.max x ∧ ∀ y ∈ xs, y ≤ xs.foldl Nat.max x := by
  induction xs generalizing x with
  | nil => simp
  | cons a t ih =>
    rw [List.foldl_cons]
    obtain ⟨h1, h2⟩ := ih (Nat.max x a)
    refine ⟨le_trans (Nat.le_max_left x a) h1, ?_⟩
    intro y hy
    rcases List.mem_cons.1 hy with rfl | hy'
    · exact le_trans (Nat.le_max_right x y) h1
    · exact h2 y hy'

theorem foldl_max_mem (xs : List Nat) (x : Nat) :
    xs.foldl Nat.max x = x ∨ xs.foldl Nat.max x ∈ xs := by
  induction xs generalizing x with
  | nil => left; rfl
  | cons a t ih =>
    rw [List.foldl_cons]
    rcases ih (Nat.max x a) with hh | hh
    · rcases Nat.le_total x a with hle | hle
      · right
        have hmx : Nat.max x a = a := Nat.max_eq_right hle
        rw [hh, hmx]
        exact List.mem_cons_self _ _
      · left
        have hmx : Nat.max x a = x := Nat.max_eq_left hle
        rw [hh, hmx]
    · right
      exact List.mem_cons_of_mem _ hh

theorem maxListNat_isSome {l : List Nat} (hne : l ≠ []) : ∃ m, maxListNat l = some m := by
  cases l with
  | nil => exact absurd rfl hne
  | cons x xs => exact ⟨_, rfl⟩

theorem maxListNat_ge {l : List Nat} {x m : Nat} (hm : maxListNat l = some m)
    (hx : x ∈ l) : x ≤ m := by
  cases l with
  | nil => simp at hx
  | cons a t =>
    have hm' : t.foldl Nat.max a = m := Option.some.inj hm
    rcases List.mem_cons.1 hx with rfl | hx'
    · rw [← hm']; exact (foldl_max_ge t x).1
    · rw [← hm']; exact (foldl_max_ge t a).2 x hx'

theorem maxListNat_mem {l : List Nat} {m : Nat} (hm : maxListNat l = some m) : m ∈ l := by
  cases l with
  | nil => simp [maxListNat] at hm
  | cons a t =>
    have hm' : t.foldl Nat.max a = m := Option.some.inj hm
    rcases foldl_max_mem t a with hh | hh
    · rw [← hm', hh]; exact List.mem_cons_self _ _
    · rw [← hm']; exact List.mem_cons_of_mem _ hh

/-! ### Characterization of `isstraightflush` -/

theorem isstraightflush_eq_of (cbs : List (Suit × Nat)) (cards : List (Suit × List Nat))
    {e : Suit × Nat} {rest : List (Suit × Nat)} (hcs : cbs = e :: rest)
    {c : Nat} (hlook : lookupA cbs (maxKeyAux e rest).1 = some c)
    {vals : List Nat} (hlook2 : lookupA cards (maxKeyAux e rest).1 = some vals) :
    isstraightflush cbs cards = if c < 5 then some false else isstraight vals := by
  subst hcs
  simp only [isstraightflush, hlook, hlook2]

theorem isstraightflush_spec (h : List Card) (hne : h ≠ []) (hnd : h.Nodup)
    (hb : ∀ c ∈ h, 1 ≤ c.2 ∧ c.2 ≤ 13) :
    ∃ s b, maxSuitOf h = some s ∧ (∀ s', countSuit h s' ≤ countSuit h s) ∧
      isstraightflush (preprocess h).countsbysuit (preprocess h).cardsbysuit = some b ∧
      (b = true ↔ (5 ≤ countSuit h s ∧ SpecStraight (valuesOf h s))) := by
  cases hcs : (preprocess h).countsbysuit with
  | nil => exact absurd hcs (countsbysuit_ne_nil h hne)
  | cons e rest =>
    have hpmem : maxKeyAux e rest ∈ (preprocess h).countsbysuit := by
      rw [hcs]; exact maxKeyAux_mem e rest
    obtain ⟨hc1, hc0⟩ := mem_countsbysuit h hpmem
    have hmax : ∀ s', countSuit h s' ≤ countSuit h (maxKeyAux e rest).1 := by
      intro s'
      by_cases h0 : countSuit h s' = 0
      · omega
      · obtain ⟨q, hq, hqe⟩ := List.mem_map.1 ((mem_keys_countsbysuit h s').2 h0)
        have hq2 := (mem_countsbysuit h hq).1
        have hle := maxKeyAux_ge e rest q (by rw [← hcs]; exact hq)
        rw [hqe] at hq2
        omega
    have hlook1 : lookupA ((preprocess h).countsbysuit) (maxKeyAux e rest).1 =
        some (countSuit h (maxKeyAux e rest).1) := by
      rw [lookupA_preprocess_countsbysuit, if_neg hc0]
    have hlook2 : lookupA ((preprocess h).cardsbysuit) (maxKeyAux e rest).1 =
        some (valuesOf h (maxKeyAux e rest).1) := by
      rw [lookupA_preprocess_cardsbysuit, if_neg hc0]
    have hmaxsuit : maxSuitOf h = some (maxKeyAux e rest).1 := by
      unfold maxSuitOf
      rw [hcs]
    have heq := isstraightflush_eq_of _ _ hcs hlook1 hlook2
    rw [hcs] at heq
    by_cases h5 : countSuit h (maxKeyAux e rest).1 < 5
    · rw [if_pos h5] at heq
      refine ⟨_, false, hmaxsuit, hmax, heq, ?_⟩
      constructor
      · intro hf; simp at hf
      · rintro ⟨hge, _⟩; omega
    · rw [if_neg h5] at heq
      have hvne : valuesOf h (maxKeyAux e rest).1 ≠ [] := by
        intro h0
        have hl := valuesOf_length h (maxKeyAux e rest).1
        rw [h0] at hl
        simp at hl
        exact hc0 hl.symm
      obtain ⟨b, hbeq⟩ := isstraight_isSome hvne
      refine ⟨_, b, hmaxsuit, hmax, heq.trans hbeq, ?_⟩
      constructor
      · intro hb'
        subst hb'
        exact ⟨by omega,
          (isstraight_eq_spec hvne (valuesOf_nodup hnd _) (valuesOf_bounds hb _)).1 hbeq⟩
      · rintro ⟨_, hsp⟩
        have ht := (isstraight_eq_spec hvne (valuesOf_nodup hnd _) (valuesOf_bounds hb _)).2 hsp
        rw [hbeq] at ht
        exact Option.some.inj ht

/-! ### Unfolding `getRank` -/

theorem getRank_sf_true (pc tc : List Card)
    (hsf : isstraightflush (preprocess (tc ++ pc)).countsbysuit
      (preprocess (tc ++ pc)).cardsbysuit = some true) :
    getRank pc tc = some STRAIGHT_FLUSH := by
  simp only [getRank, hsf]

theorem getRank_sf_false (pc tc : List Card)
    (hsf : isstraightflush (preprocess (tc ++ pc)).countsbysuit
      (preprocess (tc ++ pc)).cardsbysuit = some false) :
    getRank pc tc =
      (if 4 ∈ (preprocess (tc ++ pc)).countsbyvalue.map Prod.snd then some FOUR_KIND
       else if isfullhouse (preprocess (tc ++ pc)).countsbyvalue then some FULL_HOUSE
       else
         match maxListNat ((preprocess (tc ++ pc)).countsbysuit.map Prod.snd) with
         | none => none
         | some m =>
           if 5 ≤ m then some FLUSH
           else
             match isstraight ((preprocess (tc ++ pc)).countsbyvalue.map Prod.fst) with
             | none => none
             | some true => some STRAIGHT
             | some false =>
               if 3 ∈ (preprocess (tc ++ pc)).countsbyvalue.map Prod.snd then some THREE_KIND
               else if 2 ∈ (preprocess (tc ++ pc)).countsbyvalue.map Prod.snd then
                 if 2 ≤ (preprocess (tc ++ pc)).countsbyvalue.countP (fun p => p.2 == 2) then
                   some TWO_PAIR
                 else some ONE_PAIR
               else some HIGH_CARD) := by
  simp only [getRank, hsf]

theorem getRank_total (pc tc : List Card) (hwf : WellFormed pc tc) :
    ∃ r, getRank pc tc = some r ∧ r ≤ 8 ∧
      (isstraightflush (preprocess (tc ++ pc)).countsbysuit
        (preprocess (tc ++ pc)).cardsbysuit = some false → 1 ≤ r) := by
  have hne : (tc ++ pc) ≠ [] := fullhand_ne_nil hwf
  have hnd : (tc ++ pc).Nodup := hwf.2.2.1
  have hb : ∀ c ∈ tc ++ pc, 1 ≤ c.2 ∧ c.2 ≤ 13 := hwf.2.2.2
  obtain ⟨s, b, hms, hmax, hsf, hiff⟩ := isstraightflush_spec (tc ++ pc) hne hnd hb
  cases b with
  | true =>
    refine ⟨0, getRank_sf_true pc tc hsf, by omega, ?_⟩
    intro hf
    rw [hsf] at hf
    simp at hf
  | false =>
    rw [getRank_sf_false pc tc hsf]
    by_cases h4 : 4 ∈ (preprocess (tc ++ pc)).countsbyvalue.map Prod.snd
    · exact ⟨1, by simp [h4, FOUR_KIND], by omega, fun _ => by omega⟩
    · by_cases hfh : isfullhouse (preprocess (tc ++ pc)).countsbyvalue
      · exact ⟨2, by simp [h4, hfh, FULL_HOUSE], by omega, fun _ => by omega⟩
      · have hcs_ne : (preprocess (tc ++ pc)).countsbysuit ≠ [] := countsbysuit_ne_nil _ hne
        have hmap_ne : (preprocess (tc ++ pc)).countsbysuit.map Prod.snd ≠ [] := by
          intro h0
          exact hcs_ne (List.map_eq_nil.1 h0)
        obtain ⟨m, hm⟩ := maxListNat_isSome hmap_ne
        by_cases h5 : 5 ≤ m
        · exact ⟨3, by simp [h4, hfh, hm, h5, FLUSH], by omega, fun _ => by omega⟩
        · have hcv_ne : (preprocess (tc ++ pc)).countsbyvalue ≠ [] := countsbyvalue_ne_nil _ hne
          have hkeys_ne : (preprocess (tc ++ pc)).countsbyvalue.map Prod.fst ≠ [] := by
            intro h0
            exact hcv_ne (List.map_eq_nil.1 h0)
          obtain ⟨b', hb'⟩ := isstraight_isSome hkeys_ne
          cases b' with
          | true =>
            exact ⟨4, by simp [h4, hfh, hm, h5, hb', STRAIGHT], by omega, fun _ => by omega⟩
          | false =>
            by_cases h3 : 3 ∈ (preprocess (tc ++ pc)).countsbyvalue.map Prod.snd
            · exact ⟨5, by simp [h4, hfh, hm, h5, hb', h3, THREE_KIND], by omega,
                fun _ => by omega⟩
            · by_cases h2 : 2 ∈ (preprocess (tc ++ pc)).countsbyvalue.map Prod.snd
              · by_cases hp2 :
                  2 ≤ (preprocess (tc ++ pc)).countsbyvalue.countP (fun p => p.2 == 2)
                · exact ⟨6, by simp [h4, hfh, hm, h5, hb', h3, h2, hp2, TWO_PAIR], by omega,
                    fun _ => by omega⟩
                · exact ⟨7, by simp [h4, hfh, hm, h5, hb', h3, h2, hp2, ONE_PAIR], by omega,
                    fun _ => by omega⟩
              · exact ⟨8, by simp [h4, hfh, hm, h5, hb', h3, h2, HIGH_CARD], by omega,
                  fun _ => by omega⟩

/-! ### Bridges between the dictionaries and the specification counts -/

theorem exists_countVal_iff (h : List Card) {n : Nat} (hn : n ≠ 0) :
    (∃ v ∈ h.map Prod.snd, countVal h v = n) ↔ ∃ v, countVal h v = n := by
  constructor
  · rintro ⟨v, _, hv⟩
    exact ⟨v, hv⟩
  · rintro ⟨v, hv⟩
    exact ⟨v, (mem_values_iff_countVal h v).2 (by omega), hv⟩

theorem mem_snd_countsbyvalue_bounded (h : List Card) {n : Nat} (hn : n ≠ 0) :
    n ∈ (preprocess h).countsbyvalue.map Prod.snd ↔
      ∃ v ∈ h.map Prod.snd, countVal h v = n := by
  rw [mem_snd_countsbyvalue h hn, exists_countVal_iff h hn]

theorem isfullhouse_spec (h : List Card) :
    isfullhouse (preprocess h).countsbyvalue = true ↔
      ((∃ v ∈ h.map Prod.snd, countVal h v = 3) ∧ (distinctValsWithCount h 1).card ≤ 2) := by
  unfold isfullhouse
  by_cases h3 : 3 ∈ (preprocess h).countsbyvalue.map Prod.snd
  · rw [if_pos h3, countP_snd_countsbyvalue h 1 (by omega), decide_eq_true_eq]
    have hex := (mem_snd_countsbyvalue_bounded h (by omega)).1 h3
    exact ⟨fun hc => ⟨hex, hc⟩, fun hc => hc.2⟩
  · rw [if_neg h3]
    have hnex : ¬∃ v ∈ h.map Prod.snd, countVal h v = 3 :=
      fun hex => h3 ((mem_snd_countsbyvalue_bounded h (by omega)).2 hex)
    constructor
    · intro hf
      exact absurd hf (by simp)
    · intro hc
      exact absurd hc.1 hnex

theorem distinctVals_card_pos (h : List Card) {n : Nat} (hn : n ≠ 0) :
    0 < (distinctValsWithCount h n).card ↔ ∃ v, countVal h v = n := by
  rw [Finset.card_pos]
  constructor
  · rintro ⟨v, hv⟩
    rw [distinctValsWithCount, Finset.mem_filter] at hv
    exact ⟨v, hv.2⟩
  · rintro ⟨v, hv⟩
    refine ⟨v, ?_⟩
    rw [distinctValsWithCount, Finset.mem_filter, List.mem_toFinset,
      mem_values_iff_countVal]
    exact ⟨by omega, hv⟩

theorem maxSuit_count_ne_zero {h : List Card} (hne : h ≠ []) {s : Suit}
    (hmax : ∀ s', countSuit h s' ≤ countSuit h s) : countSuit h s ≠ 0 := by
  obtain ⟨c, t, rfl⟩ := List.exists_cons_of_ne_nil hne
  have h1 : 1 ≤ countSuit (c :: t) c.1 := by
    rw [countSuit_cons]
    simp
  have := hmax c.1
  omega

theorem maxListNat_counts {h : List Card} (hne : h ≠ []) {s : Suit}
    (hmax : ∀ s', countSuit h s' ≤ countSuit h s) :
    maxListNat ((preprocess h).countsbysuit.map Prod.snd) = some (countSuit h s) := by
  have hs0 : countSuit h s ≠ 0 := maxSuit_count_ne_zero hne hmax
  have hmap_ne : (preprocess h).countsbysuit.map Prod.snd ≠ [] := by
    intro h0
    exact countsbysuit_ne_nil h hne (List.map_eq_nil.1 h0)
  obtain ⟨m, hm⟩ := maxListNat_isSome hmap_ne
  obtain ⟨q, hq, hqe⟩ := List.mem_map.1 (maxListNat_mem hm)
  have hq2 := (mem_countsbysuit h hq).1
  have hup : m ≤ countSuit h s := by
    rw [← hqe, hq2]
    exact hmax q.1
  have hsin : countSuit h s ∈ (preprocess h).countsbysuit.map Prod.snd := by
    obtain ⟨q', hq', hqe'⟩ := List.mem_map.1 ((mem_keys_countsbysuit h s).2 hs0)
    have hq2' := (mem_countsbysuit h hq').1
    rw [hqe'] at hq2'
    exact List.mem_map.2 ⟨q', hq', hq2'⟩
  have hlow := maxListNat_ge hm hsin
  rw [hm]
  congr 1
  omega

theorem isstraight_keys (h : List Card) (hne : h ≠ [])
    (hbv : ∀ c ∈ h, 1 ≤ c.2 ∧ c.2 ≤ 13) :
    ∃ b, isstraight ((preprocess h).countsbyvalue.map Prod.fst) = some b ∧
      (b = true ↔ SpecStraight (h.map Prod.snd)) := by
  have hkeys_ne : (preprocess h).countsbyvalue.map Prod.fst ≠ [] := by
    intro h0
    exact countsbyvalue_ne_nil h hne (List.map_eq_nil.1 h0)
  have hknd : ((preprocess h).countsbyvalue.map Prod.fst).Nodup := (preprocess_keys_nodup h).2.2
  have hkmm : ∀ x, x ∈ (preprocess h).countsbyvalue.map Prod.fst ↔ x ∈ h.map Prod.snd := by
    intro x
    rw [mem_keys_countsbyvalue, mem_values_iff_countVal]
  have hkb : ∀ v ∈ (preprocess h).countsbyvalue.map Prod.fst, v ≤ 13 := by
    intro v hv
    obtain ⟨c, hc, rfl⟩ := List.mem_map.1 ((hkmm v).1 hv)
    exact (hbv c hc).2
  obtain ⟨b, hb⟩ := isstraight_isSome hkeys_ne
  refine ⟨b, hb, ?_⟩
  rw [← specStraight_congr hkmm]
  constructor
  · intro hbt
    subst hbt
    exact (isstraight_eq_spec hkeys_ne hknd hkb).1 hb
  · intro hsp
    have := (isstraight_eq_spec hkeys_ne hknd hkb).2 hsp
    rw [hb] at this
    exact Option.some.inj this

/-! ### `getRank` refines the specification cascade -/

theorem getRank_eq_rankSpec (pc tc : List Card) (hwf : WellFormed pc tc) :
    getRank pc tc = some (rankSpec (tc ++ pc)) := by
  have hne : (tc ++ pc) ≠ [] := fullhand_ne_nil hwf
  have hnd : (tc ++ pc).Nodup := hwf.2.2.1
  have hb : ∀ c ∈ tc ++ pc, 1 ≤ c.2 ∧ c.2 ≤ 13 := hwf.2.2.2
  have hlen : (tc ++ pc).length = 7 := fullhand_length hwf
  obtain ⟨s, b, hms, hmax, hsf, hiff⟩ := isstraightflush_spec (tc ++ pc) hne hnd hb
  have hcond1 : (∃ s', 5 ≤ countSuit (tc ++ pc) s' ∧
      specStraightB (valuesOf (tc ++ pc) s') = true) ↔ b = true := by
    constructor
    · rintro ⟨s', h5, hsb⟩
      have hsp := (specStraightB_iff (valuesOf_bounds hb s')).1 hsb
      have hss : s = s' := flushSuit_unique hlen (le_trans h5 (hmax s')) h5
      exact hiff.2 ⟨by rw [hss]; exact h5, by rw [hss]; exact hsp⟩
    · intro hbt
      obtain ⟨h5, hsp⟩ := hiff.1 hbt
      exact ⟨s, h5, (specStraightB_iff (valuesOf_bounds hb s)).2 hsp⟩
  cases b with
  | true =>
    rw [getRank_sf_true pc tc hsf]
    unfold rankSpec
    rw [if_pos (hcond1.2 rfl)]
    rfl
  | false =>
    have hc1 : ¬∃ s', 5 ≤ countSuit (tc ++ pc) s' ∧
        specStraightB (valuesOf (tc ++ pc) s') = true := by
      intro hc
      exact absurd (hcond1.1 hc) (by simp)
    rw [getRank_sf_false pc tc hsf]
    unfold rankSpec
    rw [if_neg hc1]
    by_cases h4 : ∃ v ∈ (tc ++ pc).map Prod.snd, countVal (tc ++ pc) v = 4
    · rw [if_pos ((mem_snd_countsbyvalue_bounded _ (by omega)).2 h4), if_pos h4]
      rfl
    · rw [if_neg (fun hm => h4 ((mem_snd_countsbyvalue_bounded _ (by omega)).1 hm)),
        if_neg h4]
      by_cases hfh : (∃ v ∈ (tc ++ pc).map Prod.snd, countVal (tc ++ pc) v = 3) ∧
          (distinctValsWithCount (tc ++ pc) 1).card ≤ 2
      · rw [if_pos ((isfullhouse_spec _).2 hfh), if_pos hfh]
        rfl
      · rw [if_neg (fun hf => hfh ((isfullhouse_spec _).1 hf)), if_neg hfh]
        have hmm := maxListNat_counts hne hmax
        simp only [hmm]
        by_cases h5x : ∃ s', 5 ≤ countSuit (tc ++ pc) s'
        · obtain ⟨s', h5'⟩ := h5x
          rw [if_pos (le_trans h5' (hmax s')), if_pos ⟨s', h5'⟩]
          rfl
        · have h5s : ¬5 ≤ countSuit (tc ++ pc) s := fun hh => h5x ⟨s, hh⟩
          rw [if_neg h5s, if_neg h5x]
          obtain ⟨b', hb', hbiff⟩ := isstraight_keys (tc ++ pc) hne hb
          have hbnd : ∀ v ∈ (tc ++ pc).map Prod.snd, v ≤ 13 := by
            intro v hv
            obtain ⟨c, hc, rfl⟩ := List.mem_map.1 hv
            exact (hb c hc).2
          cases b' with
          | true =>
            simp only [hb']
            rw [if_pos ((specStraightB_iff hbnd).2 (hbiff.1 rfl))]
            rfl
          | false =>
            simp only [hb']
            have hstf : ¬specStraightB ((tc ++ pc).map Prod.snd) = true := by
              intro hst
              have := hbiff.2 ((specStraightB_iff hbnd).1 hst)
              simp at this
            rw [if_neg hstf]
            by_cases h3 : ∃ v ∈ (tc ++ pc).map Prod.snd, countVal (tc ++ pc) v = 3
            · rw [if_pos ((mem_snd_countsbyvalue_bounded _ (by omega)).2 h3), if_pos h3]
              rfl
            · rw [if_neg (fun hm => h3 ((mem_snd_countsbyvalue_bounded _ (by omega)).1 hm)),
                if_neg h3]
              have hcntP : (preprocess (tc ++ pc)).countsbyvalue.countP (fun p => p.2 == 2) =
                  (distinctValsWithCount (tc ++ pc) 2).card :=
                countP_snd_countsbyvalue _ 2 (by omega)
              have hex2 : (∃ v, countVal (tc ++ pc) v = 2) ↔
                  0 < (distinctValsWithCount (tc ++ pc) 2).card :=
                (distinctVals_card_pos _ (by omega)).symm
              by_cases h2c : 2 ≤ (distinctValsWithCount (tc ++ pc) 2).card
              · have hmem2 : 2 ∈ (preprocess (tc ++ pc)).countsbyvalue.map Prod.snd :=
                  (mem_snd_countsbyvalue _ (by omega)).2 (hex2.2 (by omega))
                rw [if_pos hmem2, if_pos (by rw [hcntP]; exact h2c), if_pos h2c]
                rfl
              · rw [if_neg h2c]
                by_cases h1c : 1 ≤ (distinctValsWithCount (tc ++ pc) 2).card
                · have hmem2 : 2 ∈ (preprocess (tc ++ pc)).countsbyvalue.map Prod.snd :=
                    (mem_snd_countsbyvalue _ (by omega)).2 (hex2.2 (by omega))
                  rw [if_pos hmem2, if_neg (by rw [hcntP]; exact h2c), if_pos h1c]
                  rfl
                · have hmem2 : 2 ∉ (preprocess (tc ++ pc)).countsbyvalue.map Prod.snd := by
                    intro hm
                    have := hex2.1 ((mem_snd_countsbyvalue _ (by omega)).1 hm)
                    omega
                  rw [if_neg hmem2, if_neg h1c]
                  rfl

/-! ### Further helper lemmas -/

theorem no_countVal (h : List Card) (n : Nat) (hn : n ≠ 0)
    (hb : ∀ v ∈ h.map Prod.snd, countVal h v ≠ n) : ¬∃ v, countVal h v = n := by
  rintro ⟨v, hv⟩
  exact hb v ((mem_values_iff_countVal h v).2 (by omega)) hv

theorem five_distinct_le_length {l : List Nat} (hnd : l.Nodup) {xs : List Nat}
    (hxnd : xs.Nodup) (hsub : ∀ x ∈ xs, x ∈ l) : xs.length ≤ l.length := by
  rw [← List.toFinset_card_of_nodup hnd, ← List.toFinset_card_of_nodup hxnd]
  apply Finset.card_le_card
  intro x hx
  rw [List.mem_toFinset] at hx ⊢
  exact hsub x hx

theorem specStraight_five_le {h : List Card} (hnd : h.Nodup)
    (hb : ∀ c ∈ h, 1 ≤ c.2 ∧ c.2 ≤ 13) {s : Suit}
    (hsp : SpecStraight (valuesOf h s)) : 5 ≤ countSuit h s := by
  obtain ⟨a, ha⟩ := hsp
  rw [← valuesOf_length h s]
  have hlnd : (valuesOf h s).Nodup := valuesOf_nodup hnd s
  have hlb : ∀ v ∈ valuesOf h s, v ≤ 13 := valuesOf_bounds hb s
  by_cases h14 : a + 4 ≤ 13
  · have hget : ∀ i < 5, a + i ∈ valuesOf h s := by
      intro i hi
      rcases ha i hi with hm | hm
      · exact hm
      · omega
    have hsub : ∀ x ∈ [a, a + 1, a + 2, a + 3, a + 4], x ∈ valuesOf h s := by
      intro x hx
      simp only [List.mem_cons, List.not_mem_nil, or_false] at hx
      rcases hx with rfl | rfl | rfl | rfl | rfl
      · simpa using hget 0 (by omega)
      · exact hget 1 (by omega)
      · exact hget 2 (by omega)
      · exact hget 3 (by omega)
      · exact hget 4 (by omega)
    have hnd5 : ([a, a + 1, a + 2, a + 3, a + 4] : List Nat).Nodup := by
      simp
    have hle := five_distinct_le_length hlnd hnd5 hsub
    simpa using hle
  · have ha4 := ha 4 (by omega)
    rcases ha4 with hm | hm
    · have := hlb _ hm
      omega
    · obtain ⟨he, h1l⟩ := hm
      have ha10 : a = 10 := by omega
      subst ha10
      have hget : ∀ i < 4, 10 + i ∈ valuesOf h s := by
        intro i hi
        rcases ha i (by omega) with hm' | hm'
        · exact hm'
        · omega
      have hsub : ∀ x ∈ [1, 10, 11, 12, 13], x ∈ valuesOf h s := by
        intro x hx
        simp only [List.mem_cons, List.not_mem_nil, or_false] at hx
        rcases hx with rfl | rfl | rfl | rfl | rfl
        · exact h1l
        · simpa using hget 0 (by omega)
        · simpa using hget 1 (by omega)
        · simpa using hget 2 (by omega)
        · simpa using hget 3 (by omega)
      have hnd5 : ([1, 10, 11, 12, 13] : List Nat).Nodup := by decide
      have hle := five_distinct_le_length hlnd hnd5 hsub
      simpa using hle

theorem sfCond_iff (pc tc : List Card) (hwf : WellFormed pc tc) {b : Bool}
    (hsf : isstraightflush (preprocess (tc ++ pc)).countsbysuit
      (preprocess (tc ++ pc)).cardsbysuit = some b) :
    (∃ s, 5 ≤ countSuit (tc ++ pc) s ∧
      specStraightB (valuesOf (tc ++ pc) s) = true) ↔ b = true := by
  have hne : (tc ++ pc) ≠ [] := fullhand_ne_nil hwf
  have hnd : (tc ++ pc).Nodup := hwf.2.2.1
  have hb : ∀ c ∈ tc ++ pc, 1 ≤ c.2 ∧ c.2 ≤ 13 := hwf.2.2.2
  have hlen : (tc ++ pc).length = 7 := fullhand_length hwf
  obtain ⟨s, b0, hms, hmax, hsf0, hiff⟩ := isstraightflush_spec (tc ++ pc) hne hnd hb
  have hbb : b0 = b := Option.some.inj (hsf0.symm.trans hsf)
  subst hbb
  constructor
  · rintro ⟨s', h5, hsb⟩
    have hsp := (specStraightB_iff (valuesOf_bounds hb s')).1 hsb
    have hss : s = s' := flushSuit_unique hlen (le_trans h5 (hmax s')) h5
    exact hiff.2 ⟨by rw [hss]; exact h5, by rw [hss]; exact hsp⟩
  · intro hbt
    obtain ⟨h5, hsp⟩ := hiff.1 hbt
    exact ⟨s, h5, (specStraightB_iff (valuesOf_bounds hb s)).2 hsp⟩

theorem rankSpec_fh (h : List Card)
    (hc1 : ¬∃ s, 5 ≤ countSuit h s ∧ specStraightB (valuesOf h s) = true)
    (h4 : ¬∃ v ∈ h.map Prod.snd, countVal h v = 4) :
    (rankSpec h = 2 ↔
      ((∃ v ∈ h.map Prod.snd, countVal h v = 3) ∧ (distinctValsWithCount h 1).card ≤ 2)) := by
  unfold rankSpec
  rw [if_neg hc1, if_neg h4]
  by_cases hfh : (∃ v ∈ h.map Prod.snd, countVal h v = 3) ∧
      (distinctValsWithCount h 1).card ≤ 2
  · rw [if_pos hfh]
    exact ⟨fun _ => hfh, fun _ => rfl⟩
  · rw [if_neg hfh]
    constructor
    · intro heq
      exfalso
      split_ifs at heq <;> omega
    · intro hcc
      exact absurd hcc hfh

theorem rankSpec_pairs (h : List Card)
    (hc1 : ¬∃ s, 5 ≤ countSuit h s ∧ specStraightB (valuesOf h s) = true)
    (h4 : ¬∃ v ∈ h.map Prod.snd, countVal h v = 4)
    (hfh : ¬((∃ v ∈ h.map Prod.snd, countVal h v = 3) ∧
      (distinctValsWithCount h 1).card ≤ 2))
    (hfl : ¬∃ s, 5 ≤ countSuit h s)
    (hst : ¬specStraightB (h.map Prod.snd) = true)
    (h3 : ¬∃ v ∈ h.map Prod.snd, countVal h v = 3) :
    rankSpec h = (if 2 ≤ (distinctValsWithCount h 2).card then 6
      else if 1 ≤ (distinctValsWithCount h 2).card then 7 else 8) := by
  unfold rankSpec
  rw [if_neg hc1, if_neg h4, if_neg hfh, if_neg hfl, if_neg hst, if_neg h3]

theorem rankSpec_flush (h : List Card)
    (hc1 : ¬∃ s, 5 ≤ countSuit h s ∧ specStraightB (valuesOf h s) = true)
    (h4 : ¬∃ v ∈ h.map Prod.snd, countVal h v = 4)
    (hfh : ¬((∃ v ∈ h.map Prod.snd, countVal h v = 3) ∧
      (distinctValsWithCount h 1).card ≤ 2))
    (hfl : ∃ s, 5 ≤ countSuit h s) :
    rankSpec h = 3 := by
  unfold rankSpec
  rw [if_neg hc1, if_neg h4, if_neg hfh, if_pos hfl]

theorem fullhandOf_eq (pc tc : List Card) : fullhandOf pc tc = tc ++ pc := rfl

/-! ### The claims -/

/-- C1: for every well-formed 7-card hand, `getRank` returns `STRAIGHT_FLUSH`
iff the suit holding the maximum number of cards has count at least 5 and the
values held in that suit contain a run of 5 consecutive integers (Ace high or
low); if that maximum suit count is below 5, the straight-flush test is
false. -/
theorem getRank_straightflush_iff (pc tc : List Card) (hwf : WellFormed pc tc) :
    ∃ s, maxSuitOf (fullhandOf pc tc) = some s ∧
      (∀ s', countSuit (fullhandOf pc tc) s' ≤ countSuit (fullhandOf pc tc) s) ∧
      (getRank pc tc = some STRAIGHT_FLUSH ↔
        (5 ≤ countSuit (fullhandOf pc tc) s ∧
          SpecStraight (valuesOf (fullhandOf pc tc) s))) ∧
      (countSuit (fullhandOf pc tc) s < 5 → getRank pc tc ≠ some STRAIGHT_FLUSH) := by
  simp only [fullhandOf_eq]
  have hne : (tc ++ pc) ≠ [] := fullhand_ne_nil hwf
  have hnd : (tc ++ pc).Nodup := hwf.2.2.1
  have hb : ∀ c ∈ tc ++ pc, 1 ≤ c.2 ∧ c.2 ≤ 13 := hwf.2.2.2
  obtain ⟨s, b, hms, hmax, hsf, hiff⟩ := isstraightflush_spec (tc ++ pc) hne hnd hb
  have hmain : getRank pc tc = some STRAIGHT_FLUSH ↔
      (5 ≤ countSuit (tc ++ pc) s ∧ SpecStraight (valuesOf (tc ++ pc) s)) := by
    cases b with
    | true =>
      rw [getRank_sf_true pc tc hsf]
      exact ⟨fun _ => hiff.1 rfl, fun _ => rfl⟩
    | false =>
      obtain ⟨r, hgr, _, hr1⟩ := getRank_total pc tc hwf
      have h1r := hr1 hsf
      rw [hgr]
      constructor
      · intro heq
        have h0 : r = STRAIGHT_FLUSH := Option.some.inj heq
        unfold STRAIGHT_FLUSH at h0
        omega
      · intro hcond
        have hff := hiff.2 hcond
        simp at hff
  exact ⟨s, hms, hmax, hmain, fun h5 hgr => by have := (hmain.1 hgr).1; omega⟩

/-- C1 witness: the straight-flush example hand satisfies well-formedness and
the equivalence. -/
theorem getRank_straightflush_iff_witness :
    ∃ s, maxSuitOf (fullhandOf pcSF tcSF) = some s ∧
      (∀ s', countSuit (fullhandOf pcSF tcSF) s' ≤ countSuit (fullhandOf pcSF tcSF) s) ∧
      (getRank pcSF tcSF = some STRAIGHT_FLUSH ↔
        (5 ≤ countSuit (fullhandOf pcSF tcSF) s ∧
          SpecStraight (valuesOf (fullhandOf pcSF tcSF) s))) ∧
      (countSuit (fullhandOf pcSF tcSF) s < 5 → getRank pcSF tcSF ≠ some STRAIGHT_FLUSH) :=
  getRank_straightflush_iff pcSF tcSF (by decide)

/-- C2: on well-formed hands where the straight-flush test and the
four-of-a-kind test fail, `getRank` returns `FULL_HOUSE` iff some value has
count exactly 3 and at most two distinct values have count exactly 1; in
particular the two-triples hand 3-3-3-5-5-5-7 is classified `FULL_HOUSE`. -/
theorem getRank_fullhouse_iff :
    (∀ pc tc : List Card, WellFormed pc tc →
      isstraightflush (preprocess (fullhandOf pc tc)).countsbysuit
        (preprocess (fullhandOf pc tc)).cardsbysuit = some false →
      4 ∉ (preprocess (fullhandOf pc tc)).countsbyvalue.map Prod.snd →
      (getRank pc tc = some FULL_HOUSE ↔
        ((∃ v, countVal (fullhandOf pc tc) v = 3) ∧
          (distinctValsWithCount (fullhandOf pc tc) 1).card ≤ 2))) ∧
    getRank pcFH tcFH = some FULL_HOUSE := by
  constructor
  · intro pc tc hwf hsf h4
    have hsf' : isstraightflush (preprocess (tc ++ pc)).countsbysuit
        (preprocess (tc ++ pc)).cardsbysuit = some false := hsf
    have h4' : ¬∃ v ∈ (tc ++ pc).map Prod.snd, countVal (tc ++ pc) v = 4 := by
      intro hex
      exact h4 ((mem_snd_countsbyvalue_bounded (tc ++ pc) (by omega)).2 hex)
    have hc1 : ¬∃ s, 5 ≤ countSuit (tc ++ pc) s ∧
        specStraightB (valuesOf (tc ++ pc) s) = true := by
      intro hc
      have := (sfCond_iff pc tc hwf hsf').1 hc
      simp at this
    rw [getRank_eq_rankSpec pc tc hwf]
    have hiff2 := rankSpec_fh (tc ++ pc) hc1 h4'
    constructor
    · intro heq
      have h2 : rankSpec (tc ++ pc) = 2 := Option.some.inj heq
      have hres := hiff2.1 h2
      exact ⟨(exists_countVal_iff (tc ++ pc) (by omega)).1 hres.1, hres.2⟩
    · intro hcond
      have h3' : ∃ v ∈ (tc ++ pc).map Prod.snd, countVal (tc ++ pc) v = 3 :=
        (exists_countVal_iff (tc ++ pc) (by omega)).2 hcond.1
      have h2 := hiff2.2 ⟨h3', hcond.2⟩
      rw [h2]
      rfl
  · decide

/-- C2 witness: the two-triples hand satisfies the hypotheses and the
equivalence. -/
theorem getRank_fullhouse_iff_witness :
    getRank pcFH tcFH = some FULL_HOUSE ↔
      ((∃ v, countVal (fullhandOf pcFH tcFH) v = 3) ∧
        (distinctValsWithCount (fullhandOf pcFH tcFH) 1).card ≤ 2) :=
  getRank_fullhouse_iff.1 pcFH tcFH (by decide) (by decide) (by decide)

/-- C3: in the scan of `isstraight`, a duplicate adjacent value resets the run
counter to 1 (the loop continues with count 1 and unchanged previous value);
consequently on `[4,5,5,6,7,8]`, whose values do contain the run 4..8,
`isstraight` returns `false`. -/
theorem scanRun_duplicate_resets :
    (∀ (prevval count : Nat) (rest : List Nat),
      scanRun (prevval :: rest) prevval count = scanRun rest prevval 1) ∧
    SpecStraight [4, 5, 5, 6, 7, 8] ∧
    isstraight [4, 5, 5, 6, 7, 8] = some false := by
  refine ⟨?_, ⟨4, by decide⟩, by decide⟩
  intro prevval count rest
  have hb : (prevval == prevval + 1) = false := by simp
  simp [scanRun, hb]

/-- C3 witness: the reset equation at a concrete duplicate. -/
theorem scanRun_duplicate_resets_witness :
    scanRun (7 :: [8, 9]) 7 2 = scanRun [8, 9] 7 1 :=
  scanRun_duplicate_resets.1 7 2 [8, 9]

/-- C4: when the Ace (value 1) is present, `isstraight` appends 14 to the
candidate values without removing the 1, so both the Ace-low straight
1-2-3-4-5 and the Ace-high straight 10-11-12-13-(14) are detected. -/
theorem aceAugment_keeps_low :
    (∀ values : List Nat, ACE_LOW ∈ values → aceAugment values = values ++ [ACE_HIGH]) ∧
    isstraight [1, 2, 3, 4, 5] = some true ∧
    isstraight [1, 10, 11, 12, 13] = some true := by
  refine ⟨?_, by decide, by decide⟩
  intro values h1
  unfold aceAugment
  rw [if_pos h1]

/-- C4 witness: the augmentation at a concrete Ace-holding list. -/
theorem aceAugment_keeps_low_witness :
    aceAugment [1] = [1] ++ [ACE_HIGH] :=
  aceAugment_keeps_low.1 [1] (by decide)

/-- C5: for every well-formed 7-card input, `getRank` succeeds and returns
exactly one rank value in `0..8` (no partial operation is reached), and
evaluating it twice on the same input yields the same result. -/
theorem getRank_total_det (pc tc : List Card) (hwf : WellFormed pc tc) :
    (∃ r, getRank pc tc = some r ∧ r ≤ 8) ∧ getRank pc tc = getRank pc tc := by
  obtain ⟨r, h1, h2, _⟩ := getRank_total pc tc hwf
  exact ⟨⟨r, h1, h2⟩, rfl⟩

/-- C5 witness: totality and determinism at the straight-flush example
hand. -/
theorem getRank_total_det_witness :
    (∃ r, getRank pcSF tcSF = some r ∧ r ≤ 8) ∧ getRank pcSF tcSF = getRank pcSF tcSF :=
  getRank_total_det pcSF tcSF (by decide)

/-- C6 counterexample: the claim "the list is unchanged after the call" fails:
after `isstraight [3, 2]` the caller's list is `[2, 3]`, not `[3, 2]`. -/
theorem isstraight_mutates : isstraightFinal [3, 2] ≠ [3, 2] := by decide

/-- C6 amended: `isstraight` is deterministic and value-pure, but it mutates
its argument in place: after the call the list is the ascending sort of the
original list, with 14 appended when an Ace (value 1) was present; in
particular when no Ace is present the final list is a permutation of the
original list. -/
theorem isstraightFinal_spec (values : List Nat) :
    (isstraightFinal values).Perm (aceAugment values) ∧
    List.Sorted (· ≤ ·) (isstraightFinal values) ∧
    (ACE_LOW ∉ values → (isstraightFinal values).Perm values) := by
  refine ⟨isstraightFinal_perm values, isstraightFinal_sorted values, ?_⟩
  intro h1
  have haug : aceAugment values = values := by
    unfold aceAugment
    rw [if_neg h1]
  have hp := isstraightFinal_perm values
  rw [haug] at hp
  exact hp

/-- C6 amended witness: the no-Ace case at the concrete list `[3, 2]`. -/
theorem isstraightFinal_spec_witness :
    ACE_LOW ∉ ([3, 2] : List Nat) ∧ (isstraightFinal [3, 2]).Perm [3, 2] :=
  ⟨by decide, (isstraightFinal_spec [3, 2]).2.2 (by decide)⟩

/-- C7: on well-formed hands where all stronger tests fail (no straight
flush, no four of a kind, no full house, no flush, no straight, no three of a
kind), `getRank` returns `TWO_PAIR` when at least two distinct values have
count exactly 2, `ONE_PAIR` when exactly one does, and `HIGH_CARD` when none
does. -/
theorem getRank_pairs_highcard (pc tc : List Card) (hwf : WellFormed pc tc)
    (h4 : ¬∃ v, countVal (fullhandOf pc tc) v = 4)
    (hfh : ¬((∃ v, countVal (fullhandOf pc tc) v = 3) ∧
      (distinctValsWithCount (fullhandOf pc tc) 1).card ≤ 2))
    (hfl : ¬∃ s, 5 ≤ countSuit (fullhandOf pc tc) s)
    (hst : ¬SpecStraight ((fullhandOf pc tc).map Prod.snd))
    (h3 : ¬∃ v, countVal (fullhandOf pc tc) v = 3) :
    (2 ≤ (distinctValsWithCount (fullhandOf pc tc) 2).card →
      getRank pc tc = some TWO_PAIR) ∧
    ((distinctValsWithCount (fullhandOf pc tc) 2).card = 1 →
      getRank pc tc = some ONE_PAIR) ∧
    ((distinctValsWithCount (fullhandOf pc tc) 2).card = 0 →
      getRank pc tc = some HIGH_CARD) := by
  have hbnd : ∀ v ∈ (tc ++ pc).map Prod.snd, v ≤ 13 := by
    intro v hv
    obtain ⟨c, hc, rfl⟩ := List.mem_map.1 hv
    exact (hwf.2.2.2 c hc).2
  have hc1 : ¬∃ s, 5 ≤ countSuit (tc ++ pc) s ∧
      specStraightB (valuesOf (tc ++ pc) s) = true := by
    rintro ⟨s, h5, _⟩
    exact hfl ⟨s, h5⟩
  have h4' : ¬∃ v ∈ (tc ++ pc).map Prod.snd, countVal (tc ++ pc) v = 4 :=
    fun hex => h4 ((exists_countVal_iff (tc ++ pc) (by omega)).1 hex)
  have hfh' : ¬((∃ v ∈ (tc ++ pc).map Prod.snd, countVal (tc ++ pc) v = 3) ∧
      (distinctValsWithCount (tc ++ pc) 1).card ≤ 2) :=
    fun hc => hfh ⟨(exists_countVal_iff (tc ++ pc) (by omega)).1 hc.1, hc.2⟩
  have hfl' : ¬∃ s, 5 ≤ countSuit (tc ++ pc) s := hfl
  have hst' : ¬specStraightB ((tc ++ pc).map Prod.snd) = true :=
    fun hs => hst ((specStraightB_iff hbnd).1 hs)
  have h3' : ¬∃ v ∈ (tc ++ pc).map Prod.snd, countVal (tc ++ pc) v = 3 :=
    fun hex => h3 ((exists_countVal_iff (tc ++ pc) (by omega)).1 hex)
  have hrs := rankSpec_pairs (tc ++ pc) hc1 h4' hfh' hfl' hst' h3'
  have hgr := getRank_eq_rankSpec pc tc hwf
  rw [hrs] at hgr
  refine ⟨?_, ?_, ?_⟩
  · intro hc
    have hc' : 2 ≤ (distinctValsWithCount (tc ++ pc) 2).card := hc
    rw [hgr, if_pos hc']
    rfl
  · intro hc
    have hc' : (distinctValsWithCount (tc ++ pc) 2).card = 1 := hc
    rw [hgr, if_neg (by omega), if_pos (by omega)]
    rfl
  · intro hc
    have hc' : (distinctValsWithCount (tc ++ pc) 2).card = 0 := hc
    rw [hgr, if_neg (by omega), if_neg (by omega)]
    rfl

/-- C7 witness: the two-pair example hand satisfies all the hypotheses. -/
theorem getRank_pairs_highcard_witness :
    (2 ≤ (distinctValsWithCount (fullhandOf pcTP tcTP) 2).card →
      getRank pcTP tcTP = some TWO_PAIR) ∧
    ((distinctValsWithCount (fullhandOf pcTP tcTP) 2).card = 1 →
      getRank pcTP tcTP = some ONE_PAIR) ∧
    ((distinctValsWithCount (fullhandOf pcTP tcTP) 2).card = 0 →
      getRank pcTP tcTP = some HIGH_CARD) :=
  getRank_pairs_highcard pcTP tcTP (by decide)
    (no_countVal _ 4 (by omega) (by decide))
    (fun hc => no_countVal _ 3 (by omega) (by decide) hc.1)
    (by decide)
    (fun hsp => absurd ((specStraightB_iff (by decide)).2 hsp) (by decide))
    (no_countVal _ 3 (by omega) (by decide))

/-- C8: a well-formed hand with at least 5 cards of one suit, whose suited
values contain no run of 5 consecutive integers, without four of a kind and
without full house, is classified `FLUSH` and not `STRAIGHT_FLUSH`. -/
theorem getRank_flush_not_sf (pc tc : List Card) (hwf : WellFormed pc tc)
    (hfl : ∃ s, 5 ≤ countSuit (fullhandOf pc tc) s)
    (hnr : ∀ s, 5 ≤ countSuit (fullhandOf pc tc) s →
      ¬SpecStraight (valuesOf (fullhandOf pc tc) s))
    (h4 : ¬∃ v, countVal (fullhandOf pc tc) v = 4)
    (hfh : ¬((∃ v, countVal (fullhandOf pc tc) v = 3) ∧
      (distinctValsWithCount (fullhandOf pc tc) 1).card ≤ 2)) :
    getRank pc tc = some FLUSH ∧ getRank pc tc ≠ some STRAIGHT_FLUSH := by
  have hb : ∀ c ∈ tc ++ pc, 1 ≤ c.2 ∧ c.2 ≤ 13 := hwf.2.2.2
  have hc1 : ¬∃ s, 5 ≤ countSuit (tc ++ pc) s ∧
      specStraightB (valuesOf (tc ++ pc) s) = true := by
    rintro ⟨s, h5, hsb⟩
    exact hnr s h5 ((specStraightB_iff (valuesOf_bounds hb s)).1 hsb)
  have h4' : ¬∃ v ∈ (tc ++ pc).map Prod.snd, countVal (tc ++ pc) v = 4 :=
    fun hex => h4 ((exists_countVal_iff (tc ++ pc) (by omega)).1 hex)
  have hfh' : ¬((∃ v ∈ (tc ++ pc).map Prod.snd, countVal (tc ++ pc) v = 3) ∧
      (distinctValsWithCount (tc ++ pc) 1).card ≤ 2) :=
    fun hc => hfh ⟨(exists_countVal_iff (tc ++ pc) (by omega)).1 hc.1, hc.2⟩
  have hfl' : ∃ s, 5 ≤ countSuit (tc ++ pc) s := hfl
  have hrs := rankSpec_flush (tc ++ pc) hc1 h4' hfh' hfl'
  have hgr := getRank_eq_rankSpec pc tc hwf
  rw [hrs] at hgr
  exact ⟨hgr, fun hx => by rw [hgr] at hx; exact absurd (Option.some.inj hx) (by decide)⟩

/-- C8 witness: the flush example hand satisfies all the hypotheses. -/
theorem getRank_flush_not_sf_witness :
    getRank pcFL tcFL = some FLUSH ∧ getRank pcFL tcFL ≠ some STRAIGHT_FLUSH :=
  getRank_flush_not_sf pcFL tcFL (by decide) ⟨Suit.Spade, by decide⟩
    (by
      intro s h5 hsp
      have hx := (specStraightB_iff (valuesOf_bounds (by decide) s)).2 hsp
      revert h5 hx
      cases s <;> decide)
    (no_countVal _ 4 (by omega) (by decide))
    (fun hc => no_countVal _ 3 (by omega) (by decide) hc.1)

/-- C9: the concrete input player {Spade-3, Spade-7}, table {Diamond-2,
Spade-4, Spade-5, Club-13, Spade-6} is classified `STRAIGHT_FLUSH` (rank 0,
the Spade 3-4-5-6-7 straight flush). -/
theorem getRank_example_straightflush :
    getRank [(Suit.Spade, 3), (Suit.Spade, 7)]
      [(Suit.Diamond, 2), (Suit.Spade, 4), (Suit.Spade, 5), (Suit.Club, 13), (Suit.Spade, 6)] =
      some STRAIGHT_FLUSH := by
  decide

/-- C10: in a well-formed 7-card hand at most one suit can hold 5 or more
cards, so checking only the maximum-count suit is complete: whenever the
values of some suit contain 5 consecutive integers (Ace high or low), that
suit is the suit the code selects and `isstraightflush` returns `true`. -/
theorem straightflush_max_complete (pc tc : List Card) (hwf : WellFormed pc tc) :
    (∀ s1 s2, 5 ≤ countSuit (fullhandOf pc tc) s1 → 5 ≤ countSuit (fullhandOf pc tc) s2 →
      s1 = s2) ∧
    (∀ s, SpecStraight (valuesOf (fullhandOf pc tc) s) →
      maxSuitOf (fullhandOf pc tc) = some s ∧
      isstraightflush (preprocess (fullhandOf pc tc)).countsbysuit
        (preprocess (fullhandOf pc tc)).cardsbysuit = some true) := by
  have hne : (tc ++ pc) ≠ [] := fullhand_ne_nil hwf
  have hnd : (tc ++ pc).Nodup := hwf.2.2.1
  have hb : ∀ c ∈ tc ++ pc, 1 ≤ c.2 ∧ c.2 ≤ 13 := hwf.2.2.2
  have hlen : (tc ++ pc).length = 7 := fullhand_length hwf
  refine ⟨fun s1 s2 h1 h2 => flushSuit_unique hlen h1 h2, ?_⟩
  intro s hsp
  have h5 : 5 ≤ countSuit (tc ++ pc) s := specStraight_five_le hnd hb hsp
  obtain ⟨s0, b, hms, hmax, hsf, hiff⟩ := isstraightflush_spec (tc ++ pc) hne hnd hb
  have h50 : 5 ≤ countSuit (tc ++ pc) s0 := le_trans h5 (hmax s)
  have hss : s0 = s := flushSuit_unique hlen h50 h5
  subst hss
  have hbt : b = true := hiff.2 ⟨h5, hsp⟩
  subst hbt
  exact ⟨hms, hsf⟩

/-- C10 witness: completeness at the straight-flush example hand. -/
theorem straightflush_max_complete_witness :
    (∀ s1 s2, 5 ≤ countSuit (fullhandOf pcSF tcSF) s1 →
      5 ≤ countSuit (fullhandOf pcSF tcSF) s2 → s1 = s2) ∧
    (∀ s, SpecStraight (valuesOf (fullhandOf pcSF tcSF) s) →
      maxSuitOf (fullhandOf pcSF tcSF) = some s ∧
      isstraightflush (preprocess (fullhandOf pcSF tcSF)).countsbysuit
        (preprocess (fullhandOf pcSF tcSF)).cardsbysuit = some true) :=
  straightflush_max_complete pcSF tcSF (by decide)

end Poker
